import Mathlib

/-!
Verification of the pcompress chunk pipeline (src/main.c).

This file gives a shallow embedding of the per-chunk compression and
decompression framing logic of pcompress: the preprocessing wrappers
`preproc_compress` / `preproc_decompress`, the chunk framing performed by
`perform_compress`, the chunk verification and recovery performed by
`perform_decompress`, the header sanity checks of `start_decompress`, the
single-chunk adjustment of `start_compress`, the dedup index handling, and
the producer/worker/writer round-robin coordination.

Buffers are byte lists (`List Nat`, each element < 256).  Multi-byte
integers on the wire are big-endian, as produced by `htonll` / `htonl`.
External collaborators (the compression backends, LZP, Delta2, the dedup
engine, the transpose routine and the checksum function) are parameters of
the model, mirroring the function-pointer indirection in the source.
-/

namespace Pcompress

/-! ### Constants

The numeric constants below come from `pcompress.h`, which is not part of
the sources under inspection; their values are modelled from the spec
(chunk-flag byte layout in §6.2 of the spec: bit 7 = CHSIZE_MASK, bits 6-4
adaptive sub-algo, bit 3 = CHUNK_FLAG_PREPROC, bit 2 = CHUNK_FLAG_DEDUP,
bits 1-0 = COMPRESSED; preprocess-type byte: bit 0 = LZP, bit 1 = Delta2,
high bit = compressed-by-backend). -/

/-- Modelled from the spec: chunk stored verbatim (bits 1-0 of the flag byte). -/
def UNCOMPRESSED : Nat := 0

/-- Modelled from the spec: chunk was compressed by the backend (bits 1-0 = 01). -/
def COMPRESSED : Nat := 1

/-- Modelled from the spec: bit 2 of the chunk flag byte - chunk was deduped. -/
def CHUNK_FLAG_DEDUP : Nat := 4

/-- Modelled from the spec: bit 3 of the chunk flag byte - chunk was pre-processed. -/
def CHUNK_FLAG_PREPROC : Nat := 8

/-- Modelled from the spec: bit 7 of the chunk flag byte - original size appended. -/
def CHSIZE_MASK : Nat := 128

/-- Modelled from the spec: preprocess-type byte bit 0 - LZP was applied. -/
def PREPROC_TYPE_LZP : Nat := 1

/-- Modelled from the spec: preprocess-type byte bit 1 - Delta2 was applied. -/
def PREPROC_TYPE_DELTA2 : Nat := 2

/-- Modelled from the spec: preprocess-type byte high bit - backend compressed. -/
def PREPROC_COMPRESSED : Nat := 128

/-- Modelled from the spec: adaptive sub-codec id meaning "stored uncompressed". -/
def COMPRESS_NONE : Nat := 4

/-- Size of the chunk flag byte. -/
def CHUNK_FLAG_SZ : Nat := 1

/-- Size of the trailing original-chunk-size field (a u64). -/
def ORIGINAL_CHUNKSZ : Nat := 8

/-- Modelled from the spec: file-header flag bit marking a single-chunk archive. -/
def FLAG_SINGLE_CHUNK : Nat := 4

/-- Modelled from the spec: maximum compression level accepted in a header. -/
def MAX_LEVEL : Int := 14

/-! ### Big-endian byte serialization (`htonll` / `htonl` and their inverses) -/

/-- Little-endian byte list (width `w`) of a natural number. -/
def toBytesLE : Nat → Nat → List Nat
  | 0, _ => []
  | w + 1, n => n % 256 :: toBytesLE w (n / 256)

/-- Big-endian byte list of width `w`: what `htonll` (w = 8) or `htonl` (w = 4)
followed by a byte-wise store puts in the output buffer. -/
def toBytesBE (w n : Nat) : List Nat := (toBytesLE w n).reverse

/-- Read a big-endian byte list back into a natural number. -/
def fromBytesBE (l : List Nat) : Nat := l.foldl (fun a b => a * 256 + b) 0

theorem toBytesLE_length (w n : Nat) : (toBytesLE w n).length = w := by
  induction w generalizing n with
  | zero => rfl
  | succ w ih => simp [toBytesLE, ih]

theorem toBytesBE_length (w n : Nat) : (toBytesBE w n).length = w := by
  simp [toBytesBE, toBytesLE_length]

theorem toBytesBE_succ (w n : Nat) :
    toBytesBE (w + 1) n = toBytesBE w (n / 256) ++ [n % 256] := by
  simp [toBytesBE, toBytesLE]

theorem toBytesLE_lt (w n : Nat) : ∀ b ∈ toBytesLE w n, b < 256 := by
  induction w generalizing n with
  | zero => intro b hb; simp [toBytesLE] at hb
  | succ w ih =>
    intro b hb
    simp only [toBytesLE, List.mem_cons] at hb
    rcases hb with h | h
    · exact h ▸ Nat.mod_lt _ (by omega)
    · exact ih _ b h

theorem toBytesBE_lt (w n : Nat) : ∀ b ∈ toBytesBE w n, b < 256 := by
  intro b hb
  exact toBytesLE_lt w n b (List.mem_reverse.mp hb)

theorem fromBytesBE_append_single (l : List Nat) (x : Nat) :
    fromBytesBE (l ++ [x]) = fromBytesBE l * 256 + x := by
  simp [fromBytesBE, List.foldl_append]

theorem fromBytesBE_toBytesBE (w n : Nat) :
    fromBytesBE (toBytesBE w n) = n % 256 ^ w := by
  induction w generalizing n with
  | zero => simp [toBytesBE, toBytesLE, fromBytesBE, Nat.mod_one]
  | succ w ih =>
    rw [toBytesBE_succ, fromBytesBE_append_single, ih]
    have h256 : (256 : Nat) ^ (w + 1) = 256 * 256 ^ w := by ring
    rw [h256, Nat.mod_mul]
    ring

/-! ### CRC32

Model of the external `lzma_crc32` used for the non-crypto chunk and header
authentication: the standard reflected CRC-32 (polynomial `0xEDB88320`) with
pre- and post-complement, chained through the `crc` argument exactly as the
xz implementation does. -/

/-- The reflected CRC-32 polynomial. -/
def crcPoly : Nat := 0xEDB88320

/-- One LFSR step of the bit-at-a-time CRC-32. -/
def crcStep (x : Nat) : Nat := if x % 2 = 1 then (x / 2) ^^^ crcPoly else x / 2

/-- Table entry: eight LFSR steps applied to the index. -/
def crcTab (i : Nat) : Nat := crcStep^[8] i

/-- One byte-at-a-time CRC-32 state update. -/
def crcUpdate (s b : Nat) : Nat := (s / 256) ^^^ crcTab ((s ^^^ b) % 256)

/-- Feed a byte list through the CRC-32 state machine. -/
def crcFeed (s : Nat) (l : List Nat) : Nat := l.foldl crcUpdate s

/-- Model of `lzma_crc32(buf, size, crc)`: complement in, feed, complement out. -/
def lzma_crc32 (buf : List Nat) (crc : Nat) : Nat :=
  (crcFeed (crc ^^^ 0xFFFFFFFF) buf) ^^^ 0xFFFFFFFF

theorem crcFeed_append (s : Nat) (l1 l2 : List Nat) :
    crcFeed s (l1 ++ l2) = crcFeed (crcFeed s l1) l2 := by
  simp [crcFeed, List.foldl_append]

/-- Chaining two `lzma_crc32` calls equals one call on the concatenation;
this is how `perform_compress` extends the header CRC over the trailing
original-size field. -/
theorem lzma_crc32_append (l1 l2 : List Nat) (c : Nat) :
    lzma_crc32 l2 (lzma_crc32 l1 c) = lzma_crc32 (l1 ++ l2) c := by
  simp [lzma_crc32, crcFeed_append, Nat.xor_cancel_right]

theorem xor_div_two_pow (x y n : Nat) : (x ^^^ y) / 2 ^ n = x / 2 ^ n ^^^ y / 2 ^ n := by
  have h : ∀ a : Nat, a / 2 ^ n = a >>> n := fun a => (Nat.shiftRight_eq_div_pow a n).symm
  rw [h, h, h]
  refine Nat.eq_of_testBit_eq fun i => ?_
  simp [Nat.testBit_shiftRight]

theorem xor_mod_two_pow (x y n : Nat) : (x ^^^ y) % 2 ^ n = x % 2 ^ n ^^^ y % 2 ^ n := by
  refine Nat.eq_of_testBit_eq fun i => ?_
  simp only [Nat.testBit_mod_two_pow, Nat.testBit_xor]
  cases Decidable.em (i < n) with
  | inl h => simp [h]
  | inr h => simp [h]

theorem crcStep_eq (x : Nat) : crcStep x = x / 2 ^^^ x % 2 * crcPoly := by
  rcases Nat.mod_two_eq_zero_or_one x with h | h <;> simp [crcStep, h]

theorem xor_xor_comm (a b c d : Nat) :
    (a ^^^ b) ^^^ (c ^^^ d) = (a ^^^ c) ^^^ (b ^^^ d) := by
  rw [Nat.xor_assoc, Nat.xor_assoc]
  congr 1
  rw [← Nat.xor_assoc b c d, ← Nat.xor_assoc c b d, Nat.xor_comm b c]

theorem crcStep_xor (x y : Nat) : crcStep (x ^^^ y) = crcStep x ^^^ crcStep y := by
  rw [crcStep_eq, crcStep_eq, crcStep_eq]
  have hd : (x ^^^ y) / 2 = x / 2 ^^^ y / 2 := by
    have := xor_div_two_pow x y 1
    simpa using this
  have hm : (x ^^^ y) % 2 * crcPoly = x % 2 * crcPoly ^^^ y % 2 * crcPoly := by
    have h2 : (x ^^^ y) % 2 = x % 2 ^^^ y % 2 := by
      have := xor_mod_two_pow x y 1
      simpa using this
    rw [h2]
    rcases Nat.mod_two_eq_zero_or_one x with hx | hx <;>
      rcases Nat.mod_two_eq_zero_or_one y with hy | hy <;>
        simp [hx, hy, Nat.xor_self]
  rw [hd, hm, xor_xor_comm]

theorem crcStep_iterate_xor (k x y : Nat) :
    crcStep^[k] (x ^^^ y) = crcStep^[k] x ^^^ crcStep^[k] y := by
  induction k generalizing x y with
  | zero => rfl
  | succ k ih => simp [Function.iterate_succ_apply, crcStep_xor, ih]

/-- The CRC-32 table is GF(2)-linear in its index. -/
theorem crcTab_xor (x y : Nat) : crcTab (x ^^^ y) = crcTab x ^^^ crcTab y :=
  crcStep_iterate_xor 8 x y

theorem crcTab_zero : crcTab 0 = 0 := by decide

set_option maxRecDepth 2048 in
/-- Every nonzero table entry (index below 256) has its top byte nonzero. -/
theorem crcTab_ge (i : Nat) (h : i < 256) (hne : i ≠ 0) : 2 ^ 24 ≤ crcTab i := by
  revert hne
  revert i h
  decide

set_option maxRecDepth 2048 in
theorem crcTab_lt (i : Nat) (h : i < 256) : crcTab i < 2 ^ 32 := by
  revert i h
  decide

theorem xor_div_256 (x y : Nat) : (x ^^^ y) / 256 = x / 256 ^^^ y / 256 := by
  have h := xor_div_two_pow x y 8
  norm_num at h
  exact h

theorem xor_mod_256 (x y : Nat) : (x ^^^ y) % 256 = x % 256 ^^^ y % 256 := by
  have h := xor_mod_two_pow x y 8
  norm_num at h
  exact h

theorem crcUpdate_lt {s : Nat} (b : Nat) (hs : s < 2 ^ 32) : crcUpdate s b < 2 ^ 32 := by
  refine Nat.xor_lt_two_pow (lt_of_le_of_lt (Nat.div_le_self s 256) hs) ?_
  exact crcTab_lt _ (Nat.mod_lt _ (by omega))

theorem crcUpdate_xor_eq (s1 s2 b1 b2 : Nat) :
    crcUpdate s1 b1 ^^^ crcUpdate s2 b2 =
      (s1 ^^^ s2) / 256 ^^^ crcTab (((s1 ^^^ b1) ^^^ (s2 ^^^ b2)) % 256) := by
  unfold crcUpdate
  rw [xor_xor_comm, ← xor_div_256, ← crcTab_xor, ← xor_mod_256]

/-- Two different CRC states fed the same byte stay different (states bounded
by 2^32). -/
theorem crcUpdate_ne_left {s1 s2 : Nat} (b : Nat) (h1 : s1 < 2 ^ 32) (h2 : s2 < 2 ^ 32)
    (hne : s1 ≠ s2) : crcUpdate s1 b ≠ crcUpdate s2 b := by
  intro heq
  have hz : crcUpdate s1 b ^^^ crcUpdate s2 b = 0 := by rw [heq, Nat.xor_self]
  rw [crcUpdate_xor_eq] at hz
  have hidx : ((s1 ^^^ b) ^^^ (s2 ^^^ b)) % 256 = (s1 ^^^ s2) % 256 := by
    rw [xor_xor_comm, Nat.xor_self, Nat.xor_zero]
  rw [hidx] at hz
  have hd : s1 ^^^ s2 ≠ 0 := Nat.xor_ne_zero.mpr hne
  have hzz : (s1 ^^^ s2) / 256 = crcTab ((s1 ^^^ s2) % 256) := Nat.xor_eq_zero.mp hz
  rcases Decidable.em ((s1 ^^^ s2) % 256 = 0) with hm | hm
  · rw [hm, crcTab_zero] at hzz
    exact hd (by omega)
  · have hge : 2 ^ 24 ≤ crcTab ((s1 ^^^ s2) % 256) :=
      crcTab_ge _ (Nat.mod_lt _ (by omega)) hm
    have hlt : (s1 ^^^ s2) / 256 < 2 ^ 24 := by
      have hx : s1 ^^^ s2 < 2 ^ 32 := Nat.xor_lt_two_pow h1 h2
      omega
    omega

/-- The same CRC state fed two different bytes diverges. -/
theorem crcUpdate_ne_right (s : Nat) {b1 b2 : Nat} (h1 : b1 < 256) (h2 : b2 < 256)
    (hne : b1 ≠ b2) : crcUpdate s b1 ≠ crcUpdate s b2 := by
  intro heq
  have hz : crcUpdate s b1 ^^^ crcUpdate s b2 = 0 := by rw [heq, Nat.xor_self]
  rw [crcUpdate_xor_eq, Nat.xor_self, Nat.div_eq_of_lt (by omega), Nat.zero_xor] at hz
  have hidx : ((s ^^^ b1) ^^^ (s ^^^ b2)) % 256 = b1 ^^^ b2 := by
    rw [xor_xor_comm, Nat.xor_self, Nat.zero_xor]
    exact Nat.mod_eq_of_lt (Nat.xor_lt_two_pow (n := 8) (by omega) (by omega))
  rw [hidx] at hz
  have hbne : b1 ^^^ b2 ≠ 0 := Nat.xor_ne_zero.mpr hne
  have hge : 2 ^ 24 ≤ crcTab (b1 ^^^ b2) :=
    crcTab_ge _ (Nat.xor_lt_two_pow (n := 8) (by omega) (by omega)) hbne
  omega

theorem crcFeed_lt (l : List Nat) {s : Nat} (hs : s < 2 ^ 32) : crcFeed s l < 2 ^ 32 := by
  induction l generalizing s with
  | nil => exact hs
  | cons b t ih => exact ih (crcUpdate_lt b hs)

theorem crcFeed_ne {s1 s2 : Nat} (l : List Nat) (h1 : s1 < 2 ^ 32) (h2 : s2 < 2 ^ 32)
    (hne : s1 ≠ s2) : crcFeed s1 l ≠ crcFeed s2 l := by
  induction l generalizing s1 s2 with
  | nil => exact hne
  | cons b t ih =>
    exact ih (crcUpdate_lt b h1) (crcUpdate_lt b h2) (crcUpdate_ne_left b h1 h2 hne)

/-- CRC-32 sensitivity: two byte lists that differ in exactly one byte have
different CRC states. -/
theorem crcFeed_single_diff (pre suf : List Nat) {s b1 b2 : Nat} (hs : s < 2 ^ 32)
    (hb1 : b1 < 256) (hb2 : b2 < 256) (hne : b1 ≠ b2) :
    crcFeed s (pre ++ b1 :: suf) ≠ crcFeed s (pre ++ b2 :: suf) := by
  induction pre generalizing s with
  | nil =>
    simpa [crcFeed] using
      crcFeed_ne suf (crcUpdate_lt b1 hs) (crcUpdate_lt b2 hs)
        (crcUpdate_ne_right s hb1 hb2 hne)
  | cons c t ih =>
    simpa [crcFeed] using ih (crcUpdate_lt c hs)

/-- Sensitivity of the chunk-header CRC: flipping one covered byte changes
the `lzma_crc32` value. -/
theorem lzma_crc32_single_diff (pre suf : List Nat) {b1 b2 : Nat}
    (hb1 : b1 < 256) (hb2 : b2 < 256) (hne : b1 ≠ b2) :
    lzma_crc32 (pre ++ b1 :: suf) 0 ≠ lzma_crc32 (pre ++ b2 :: suf) 0 := by
  intro heq
  exact crcFeed_single_diff pre suf (by norm_num) hb1 hb2 hne
    (Nat.xor_left_injective heq)

/-! ### Configuration and external collaborators

`Cfg` gathers the process-global option variables of `main.c` that the
per-chunk pipeline consults; `Ext` gathers the out-of-scope collaborator
functions that the pipeline calls through pointers (backend codec, LZP,
Delta2, checksum).  A backend call models
`cmp_func(src, srclen, dst, &dstlen, level, chdr, data)`: `none` stands for
a negative return, `some (rv, out)` for a non-negative return `rv` with
`dstlen` bytes of output `out`.  Fixed arguments (level, chdr, data) are
folded into the closures. -/

structure Cfg where
  cksum_bytes : Nat
  chunksize : Nat
  lzp_preprocess : Bool
  enable_delta2_encode : Bool
  adapt_mode : Bool
  delta2_span : Nat

structure Ext where
  lzp_c : List Nat → Option (List Nat)
  lzp_d : List Nat → Option (List Nat)
  delta2_enc : Nat → List Nat → Option (List Nat)
  delta2_dec : List Nat → Option (List Nat)
  comp : List Nat → Option (Nat × List Nat)
  decomp : List Nat → Nat → Option (List Nat)
  cksum : List Nat → List Nat

/-- In-place `memcpy(buf, new, new.length)` on a working buffer: the first
`new.length` bytes are overwritten, the rest of the buffer keeps its old
content. -/
def applyInto (buf new : List Nat) : List Nat := new ++ buf.drop new.length

/-! ### `preproc_compress` (src/main.c lines 228-298)

The wrapper applies LZP and/or Delta2 in place on the source buffer, writes
a type byte and (for backend-compressed payloads) an 8-byte big-endian
pre-compression length, then calls the backend.  Result:
`some (rv, payload, buf)` for a non-negative return, where `payload` is the
emitted chunk payload and `buf` the (possibly preprocessed) content of the
source buffer; `none` for a -1 return. -/

/-- LZP stage (lines 238-259): applied only when `lzp_compress` returns a
size different from `srclen`; when it fails and Delta2 is not enabled the
wrapper returns -1 (`none`).  Result: `(type, buffer, current length)`. -/
def preprocStage1 (cfg : Cfg) (ext : Ext) (src : List Nat) :
    Option (Nat × List Nat × Nat) :=
  if cfg.lzp_preprocess then
    match ext.lzp_c src with
    | none => if cfg.enable_delta2_encode then some (0, src, src.length) else none
    | some res =>
      if res.length = src.length then
        (if cfg.enable_delta2_encode then some (0, src, src.length) else none)
      else some (PREPROC_TYPE_LZP, applyInto src res, res.length)
  else
    -- "Invalid preprocessing mode" unless Delta2 alone is enabled
    if cfg.enable_delta2_encode then some (0, src, src.length) else none

/-- Delta2 stage (lines 261-270): applied whenever `delta2_encode` does not
error. -/
def preprocStage2 (cfg : Cfg) (ext : Ext) (ty1 : Nat) (buf1 : List Nat) (n1 : Nat) :
    Nat × List Nat × Nat :=
  if cfg.enable_delta2_encode ∧ 0 < cfg.delta2_span then
    match ext.delta2_enc cfg.delta2_span (buf1.take n1) with
    | some res2 => (ty1 ||| PREPROC_TYPE_DELTA2, applyInto buf1 res2, res2.length)
    | none => (ty1, buf1, n1)
  else (ty1, buf1, n1)

def preproc_compress (cfg : Cfg) (ext : Ext) (src : List Nat) :
    Option (Nat × List Nat × List Nat) :=
  match preprocStage1 cfg ext src with
  | none => none
  | some (ty1, buf1, n1) =>
    match preprocStage2 cfg ext ty1 buf1 n1 with
    | (ty2, buf2, n2) =>
      -- backend stage; on shrink keep the compressed form with the high bit
      match ext.comp (buf2.take n2) with
      | some (rv, out) =>
        if out.length < n2 then
          some (rv, (ty2 ||| PREPROC_COMPRESSED) :: (toBytesBE 8 n2 ++ out), buf2)
        else
          some (if 0 < ty2 then 0 else rv, ty2 :: buf2.take n2, buf2)
      | none =>
        if 0 < ty2 then some (0, ty2 :: buf2.take n2, buf2) else none

/-! ### `preproc_decompress` (src/main.c lines 300-356)

Reads the type byte, then undoes in order: backend compression (gated by
the high bit, consuming the 8-byte length field), Delta2 (bit 1), LZP
(bit 0).  `dst0` is the (unspecified) prior content of the destination
buffer, returned untouched in the degenerate type-0 case; it is modelled
as an explicit argument. -/

def preproc_decompress (ext : Ext) (src : List Nat) (dst0 : List Nat) :
    Except String (List Nat) :=
  let ty := src.headD 0
  let s1 := src.tail
  let step1 : Except String (List Nat × Bool) :=
    if ty &&& PREPROC_COMPRESSED ≠ 0 then
      match ext.decomp (s1.drop 8) (fromBytesBE (s1.take 8)) with
      | none => .error "backend decompression failed"
      | some out => .ok (out, true)
    else .ok (s1, false)
  match step1 with
  | .error e => .error e
  | .ok (cur1, w1) =>
    let step2 : Except String (List Nat × Bool) :=
      if ty &&& PREPROC_TYPE_DELTA2 ≠ 0 then
        match ext.delta2_dec cur1 with
        | none => .error "delta2 decoding failed"
        | some out => .ok (out, true)
      else .ok (cur1, w1)
    match step2 with
    | .error e => .error e
    | .ok (cur2, w2) =>
      let step3 : Except String (List Nat × Bool) :=
        if ty &&& PREPROC_TYPE_LZP ≠ 0 then
          match ext.lzp_d cur2 with
          | none => .error "LZP decompression failed"
          | some out => .ok (out, true)
        else .ok (cur2, w2)
      match step3 with
      | .error e => .error e
      | .ok (cur3, w3) =>
        if ty &&& (PREPROC_COMPRESSED ||| PREPROC_TYPE_DELTA2 ||| PREPROC_TYPE_LZP) = 0
            ∧ 0 < ty then
          .error "invalid preprocessing flags"
        else .ok (if w3 then cur3 else dst0)

/-! ### `perform_compress`, non-dedup non-crypto path (src/main.c 1312-1572)

The chunk framing: compress (optionally through the preprocessing wrapper),
fall back to a verbatim copy of the working buffer when the backend errored
or did not shrink below the original chunk length, assemble the flag byte,
append the original size when the chunk is short, and compute the header
CRC32 over the chunk header (mac slot zeroed) plus the optional trailing
original-size field. -/

/-- Compression stage: the backend (or preprocessing wrapper) result and
the content of the uncompressed working buffer afterwards. -/
def compressStage (cfg : Cfg) (ext : Ext) (chunk : List Nat) :
    Option (Nat × List Nat) × List Nat :=
  if cfg.lzp_preprocess ∨ cfg.enable_delta2_encode then
    match preproc_compress cfg ext chunk with
    | none => (none, chunk)
    | some (rv, payload, buf) => (some (rv, payload), buf)
  else
    match ext.comp chunk with
    | none => (none, chunk)
    | some (rv, out) => (some (rv, out), chunk)

/-- Fallback stage (lines 1451-1466): `(compressedQ, rv, payload)`.  The
chunk is left uncompressed when the stage errored (`rv` becomes
`COMPRESS_NONE`) or when the result is not smaller than the original
`rbytes`; in that case the working buffer is stored verbatim. -/
def fallbackStage (cfg : Cfg) (ext : Ext) (chunk : List Nat) : Bool × Nat × List Nat :=
  let rbytes := chunk.length
  match compressStage cfg ext chunk with
  | (none, buf) => (false, COMPRESS_NONE, buf.take rbytes)
  | (some (rv, out), buf) =>
    if rbytes ≤ out.length then (false, rv, buf.take rbytes) else (true, rv, out)

/-- The chunk flag byte exactly as assembled by `perform_compress`
(lines 1497-1532). -/
def mkType (compressedQ dedup preproc adapt : Bool) (rv : Nat) (chsize : Bool) : Nat :=
  ((((if compressedQ then COMPRESSED else UNCOMPRESSED) |||
        (if dedup then CHUNK_FLAG_DEDUP else 0)) |||
      (if preproc then CHUNK_FLAG_PREPROC else 0)) |||
    (if adapt then rv <<< 4 else 0)) |||
  (if chsize then CHSIZE_MASK else 0)

/-- Flag byte of the chunk produced for `chunk` on the non-dedup path. -/
def chunkFlags (cfg : Cfg) (ext : Ext) (chunk : List Nat) : Nat :=
  mkType (fallbackStage cfg ext chunk).1 false
    (cfg.lzp_preprocess || cfg.enable_delta2_encode) cfg.adapt_mode
    (fallbackStage cfg ext chunk).2.1 (chunk.length < cfg.chunksize)

/-- Payload bytes stored for `chunk`. -/
def chunkPayload (cfg : Cfg) (ext : Ext) (chunk : List Nat) : List Nat :=
  (fallbackStage cfg ext chunk).2.2

/-- Optional trailing original-size field. -/
def chunkTail (cfg : Cfg) (chunk : List Nat) : List Nat :=
  if chunk.length < cfg.chunksize then toBytesBE 8 chunk.length else []

/-- The on-wire compressed length stored in the first 8 bytes. -/
def chunkWireLen (cfg : Cfg) (ext : Ext) (chunk : List Nat) : Nat :=
  (chunkPayload cfg ext chunk).length +
    (if chunk.length < cfg.chunksize then ORIGINAL_CHUNKSZ else 0)

/-- The chunk header CRC32 (lines 1554-1568): over `len_cmp`, the stored
checksum, the zeroed mac slot and the flag byte, extended over the trailing
original-size field when present. -/
def chunkCrc (cfg : Cfg) (ext : Ext) (chunk : List Nat) : Nat :=
  lzma_crc32 (chunkTail cfg chunk)
    (lzma_crc32
      (toBytesBE 8 (chunkWireLen cfg ext chunk) ++ ext.cksum chunk ++
        List.replicate 4 0 ++ [chunkFlags cfg ext chunk]) 0)

/-- The full framed chunk (`cmp_seg`) as handed to the writer thread. -/
def perform_compress (cfg : Cfg) (ext : Ext) (chunk : List Nat) : List Nat :=
  toBytesBE 8 (chunkWireLen cfg ext chunk) ++ ext.cksum chunk ++
    toBytesBE 4 (chunkCrc cfg ext chunk) ++ [chunkFlags cfg ext chunk] ++
    chunkPayload cfg ext chunk ++ chunkTail cfg chunk

/-! ### `perform_decompress`, non-dedup non-crypto path
(src/main.c 364-631 together with the chunk-header read loop 1161-1255) -/

/-- The byte string over which `perform_decompress` recomputes the chunk
header CRC32 (lines 459-474): the raw 8 length bytes, the stored checksum,
the zeroed mac slot, the flag byte, and the original-size field when the
CHSIZE flag is set. -/
def decompCrcInput (ck : Nat) (lenBytes buf : List Nat) : List Nat :=
  let hdrByte := (buf.drop (ck + 4)).take CHUNK_FLAG_SZ
  lenBytes ++ buf.take ck ++ List.replicate 4 0 ++ hdrByte ++
    (if (buf.drop (ck + 4)).headD 0 &&& CHSIZE_MASK ≠ 0 then
      (buf.drop (buf.length - 8)).take 8
    else [])

/-- The CRC32 verification performed on a chunk before anything else
(lines 459-486): the stored mac (read big-endian, as the `htonl` of the
little-endian load does) must equal the CRC32 recomputed over
`decompCrcInput`. -/
def chunk_crc_ok (ck : Nat) (lenBytes buf : List Nat) : Bool :=
  fromBytesBE ((buf.drop ck).take 4) == lzma_crc32 (decompCrcInput ck lenBytes buf) 0

/-- Chunk recovery.  `wire` is the full framed chunk as read from the file:
8 length bytes followed by `len_cmp + cksum_bytes + mac_bytes + 1` bytes. -/
def perform_decompress (cfg : Cfg) (ext : Ext) (wire : List Nat) :
    Except String (List Nat) :=
  let lenBytes := wire.take 8
  let len0 := fromBytesBE lenBytes
  let buf := wire.drop 8
  let ck := cfg.cksum_bytes
  -- "Check for ridiculous length" in the read loop (line 1193)
  if cfg.chunksize + 256 < len0 then .error "oversize chunk" else
  let hdr := (buf.drop (ck + 4)).headD 0
  let chs := hdr &&& CHSIZE_MASK ≠ 0
  let len_cmp := if chs then len0 - ORIGINAL_CHUNKSZ else len0
  let chunksize0 :=
    if chs then fromBytesBE ((buf.drop (buf.length - 8)).take 8) else cfg.chunksize
  -- CRC32 verification first (lines 459-486)
  if chunk_crc_ok ck lenBytes buf = false then .error "Header CRC verification failed" else
  let payloadArea := buf.drop (ck + 4 + CHUNK_FLAG_SZ)
  let recovered : Except String (List Nat) :=
    if hdr &&& COMPRESSED ≠ 0 then
      if hdr &&& CHUNK_FLAG_PREPROC ≠ 0 then
        preproc_decompress ext (payloadArea.take len_cmp) (List.replicate chunksize0 0)
      else
        match ext.decomp (payloadArea.take len_cmp) chunksize0 with
        | none => .error "decompression failed"
        | some out => .ok out
    else .ok (payloadArea.take chunksize0)
  match recovered with
  | .error e => .error e
  | .ok out =>
    -- plaintext checksum re-computation (lines 614-626)
    if ext.cksum out ≠ buf.take ck then .error "checksums do not match"
    else .ok out

/-- Flip bit `k` of byte `i` of a byte list. -/
def flipBit (l : List Nat) (i k : Nat) : List Nat :=
  l.set i (l.getD i 0 ^^^ (1 <<< k))

/-! ### Header sanity checks of `start_decompress` (src/main.c 742-770) -/

/-- The `EIGHTY_PCT` macro of main.c. -/
def EIGHTY_PCT (x : Nat) : Nat := x - x / 5

/-- The four "ridiculous values" checks performed on the file header, in
source order.  `version` and `level` carry the signed values produced by
`ntohs` / `ntohl`; `V` is the compiled-in `VERSION`. -/
def start_decompress_checks (V version : Int) (chunksize totalRam : Nat)
    (level : Int) : Except String Unit :=
  if V < version then .error "Cannot handle newer archive version"
  else if EIGHTY_PCT totalRam < chunksize then
    .error "Chunk size must not exceed 80% of total RAM"
  else if MAX_LEVEL < level ∨ level < 0 then
    .error "Invalid compression level in header"
  else if version < V - 3 then .error "Unsupported version"
  else .ok ()

/-! ### Single-chunk adjustment in `start_compress` (src/main.c 1778-1795) -/

/-- For a regular file no larger than the configured chunk size,
`start_compress` lowers the chunk size to the file size and flags the
archive as single-chunk.  Returns `(chunksize', single_chunk)`. -/
def start_compress_adjust (fileSize chunksize : Nat) : Nat × Bool :=
  if fileSize ≤ chunksize then (fileSize, true) else (chunksize, false)

/-- File-header flag assembly: FLAG_SINGLE_CHUNK is or-ed in for
single-chunk archives (line 1788). -/
def start_compress_flags (base : Nat) (single : Bool) : Nat :=
  if single then base ||| FLAG_SINGLE_CHUNK else base

/-! ### Dedup index processing (src/main.c 1369-1408 and 536-551)

On the dedup path the rabin index table and the deduped data are handled
separately.  The index is byte-transposed (element size 4, direction ROW),
then LZMA-compressed when it is at least 90 bytes; on error or no shrink
the transposed index is stored verbatim with compressed size equal to the
original size.  `IdxExt` carries the external LZMA pair and the two
transpose directions; `lzma_c lv chdr src` models
`lzma_compress(src, srclen, dst, &dstlen, lv, chdr, lzma_data)` and
`lzma_d lv chdr src dstlen` the matching decompress call. -/

structure IdxExt where
  lzma_c : Nat → Nat → List Nat → Option (List Nat)
  lzma_d : Nat → Nat → List Nat → Nat → Option (List Nat)
  trRow : List Nat → List Nat
  trCol : List Nat → List Nat

/-- Compress-side index handling.  Returns the stored bytes, the stored
compressed size `index_size_cmp`, and a record `(level, chdr)` of the
arguments passed to the LZMA call when one was made: the call site passes
`tdat->rctx->level` as the level and the sentinel 255 as the chunk-header
argument. -/
def indexCompress (ix : IdxExt) (ctxLevel : Nat) (idx : List Nat) :
    List Nat × Nat × Option (Nat × Nat) :=
  let t := ix.trRow idx
  if 90 ≤ idx.length then
    match ix.lzma_c ctxLevel 255 t with
    | some out =>
      if out.length < idx.length then (out, out.length, some (ctxLevel, 255))
      else (t, idx.length, some (ctxLevel, 255))
    | none => (t, idx.length, some (ctxLevel, 255))
  else (t, idx.length, none)

/-- Decompress-side index handling (lines 539-551): LZMA-decompress only
when the index is at least 90 bytes and the stored size is strictly
smaller, else copy; then inverse-transpose (direction COL). -/
def indexDecompress (ix : IdxExt) (ctxLevel : Nat) (idxSz idxSzCmp : Nat)
    (stored : List Nat) : Option (List Nat) :=
  let u :=
    if 90 ≤ idxSz ∧ idxSzCmp < idxSz then ix.lzma_d ctxLevel 0 stored idxSz
    else some stored
  match u with
  | none => none
  | some v => some (ix.trCol v)

/-! ### Producer / worker / writer coordination (src/main.c 1575-1616 and
2064-2172)

The producer dispatches chunk `i` to worker `i % N` after waiting on that
worker's `write_done` semaphore; a worker turns its loaded chunk into a
finished one at an arbitrary later time; the writer waits on `cmp_done` of
worker `nw % N` where `nw` counts chunks already written, so it collects in
the same round-robin order.  The three phases are modelled as events of a
transition system; an event whose semaphore is unavailable leaves the state
unchanged (the thread would block). -/

inductive Slot where
  | free : Slot
  | loaded : Nat → Slot
  | done : Nat → Slot
deriving DecidableEq

structure PoolState where
  np : Nat
  nw : Nat
  slots : Nat → Slot
  out : List Nat

inductive Ev where
  | dispatch : Ev
  | finish : Nat → Ev
  | write : Ev

/-- Initial pool: nothing dispatched, every `write_done` pre-posted
(slot free). -/
def initState : PoolState := ⟨0, 0, fun _ => .free, []⟩

/-- One scheduling event. -/
def stepEv (N : Nat) (s : PoolState) : Ev → PoolState
  | .dispatch =>
    match s.slots (s.np % N) with
    | .free =>
      ⟨s.np + 1, s.nw, fun q => if q = s.np % N then .loaded s.np else s.slots q, s.out⟩
    | .loaded _ => s
    | .done _ => s
  | .finish p =>
    match s.slots (p % N) with
    | .loaded k =>
      ⟨s.np, s.nw, fun q => if q = p % N then .done k else s.slots q, s.out⟩
    | .free => s
    | .done _ => s
  | .write =>
    match s.slots (s.nw % N) with
    | .done k =>
      ⟨s.np, s.nw + 1, fun q => if q = s.nw % N then .free else s.slots q, s.out ++ [k]⟩
    | .free => s
    | .loaded _ => s

/-- Run a whole schedule. -/
def runPool (N : Nat) (evs : List Ev) : PoolState := evs.foldl (stepEv N) initState

/-! ### Arithmetic helper lemmas for big-endian fields -/

theorem fromBytesBE_acc (a : Nat) (l : List Nat) :
    l.foldl (fun x b => x * 256 + b) a = a * 256 ^ l.length + fromBytesBE l := by
  induction l generalizing a with
  | nil => simp [fromBytesBE]
  | cons b t ih =>
    have hbt : fromBytesBE (b :: t) = b * 256 ^ t.length + fromBytesBE t := by
      show t.foldl _ (0 * 256 + b) = _
      rw [ih (0 * 256 + b)]
      ring_nf
    simp only [List.foldl_cons]
    rw [ih (a * 256 + b), List.length_cons, hbt]
    ring

theorem fromBytesBE_cons (b : Nat) (t : List Nat) :
    fromBytesBE (b :: t) = b * 256 ^ t.length + fromBytesBE t := by
  show t.foldl _ (0 * 256 + b) = _
  rw [fromBytesBE_acc (0 * 256 + b)]
  ring_nf

/-- Two equal-length byte strings that differ at one position have
different big-endian values. -/
theorem fromBytesBE_ne_single (pre suf : List Nat) {b1 b2 : Nat} (hne : b1 ≠ b2) :
    fromBytesBE (pre ++ b1 :: suf) ≠ fromBytesBE (pre ++ b2 :: suf) := by
  induction pre with
  | nil =>
    simp only [List.nil_append, fromBytesBE_cons]
    intro h
    have h' : b1 * 256 ^ suf.length = b2 * 256 ^ suf.length := by omega
    exact hne (Nat.eq_of_mul_eq_mul_right (Nat.pos_pow_of_pos _ (by omega)) h')
  | cons a t ih =>
    simp only [List.cons_append, fromBytesBE_cons, List.length_append,
      List.length_cons]
    intro h
    exact ih (by omega)

theorem lzma_crc32_lt (l : List Nat) {c : Nat} (hc : c < 2 ^ 32) :
    lzma_crc32 l c < 2 ^ 32 := by
  unfold lzma_crc32
  refine Nat.xor_lt_two_pow (crcFeed_lt l ?_) (by norm_num)
  exact Nat.xor_lt_two_pow hc (by norm_num)

/-! ### Bit-flip decomposition lemmas -/

theorem flipBit_length (l : List Nat) (i k : Nat) : (flipBit l i k).length = l.length := by
  simp [flipBit]

theorem flipBit_append_right (A B : List Nat) (i k : Nat) (h : A.length ≤ i) :
    flipBit (A ++ B) i k = A ++ flipBit B (i - A.length) k := by
  unfold flipBit
  rw [List.set_append_right _ _ h]
  congr 2
  simp [List.getD_eq_getElem?_getD, List.getElem?_append_right h]

theorem flipBit_append_left (A B : List Nat) (i k : Nat) (h : i < A.length) :
    flipBit (A ++ B) i k = flipBit A i k ++ B := by
  unfold flipBit
  rw [List.set_append_left _ _ h]
  congr 2
  simp [List.getD_eq_getElem?_getD, List.getElem?_append_left h]

/-- The flipped byte differs from the original and stays below 256. -/
theorem flipBit_single_diff (B : List Nat) (j k : Nat) (hj : j < B.length) (hk : k < 8)
    (hb : ∀ b ∈ B, b < 256) :
    ∃ b b', B = B.take j ++ b :: B.drop (j + 1) ∧
      flipBit B j k = B.take j ++ b' :: B.drop (j + 1) ∧
      b < 256 ∧ b' < 256 ∧ b ≠ b' ∧ (B.take j).length = j := by
  refine ⟨B[j], B[j] ^^^ (1 <<< k), ?_, ?_, ?_, ?_, ?_, ?_⟩
  · conv_lhs => rw [← List.take_append_drop j B]
    rw [List.drop_eq_getElem_cons hj]
  · unfold flipBit
    rw [List.set_eq_take_cons_drop _ hj]
    congr 2
    simp [List.getD_eq_getElem?_getD, List.getElem?_eq_getElem hj]
  · exact hb _ (List.getElem_mem hj)
  · refine Nat.xor_lt_two_pow (n := 8) (hb _ (List.getElem_mem hj)) ?_
    have : (1 : Nat) <<< k = 2 ^ k := Nat.one_shiftLeft k
    rw [this]
    exact Nat.pow_lt_pow_right (by omega) hk
  · intro h
    have h0 : (1 : Nat) <<< k = 0 := by
      have heq : B[j] ^^^ (1 <<< k) = B[j] ^^^ 0 := by
        rw [Nat.xor_zero]; exact h.symm
      exact Nat.xor_right_injective heq
    rw [Nat.one_shiftLeft] at h0
    exact absurd h0 (Nat.pos_iff_ne_zero.mp (Nat.pos_pow_of_pos _ (by omega)))
  · simp [List.length_take]
    omega

/-! ### Flag-byte decomposition -/

theorem mkType_adapt_false (c d p : Bool) (rv : Nat) (cs : Bool) :
    mkType c d p false rv cs = mkType c d p false 0 cs := by
  simp [mkType]

set_option maxRecDepth 2048 in
theorem mkType_core : ∀ (c d p a cs : Bool) (rv : Fin 8),
    mkType c d p a rv.val cs < 256 ∧
    mkType c d p a rv.val cs &&& CHSIZE_MASK = (if cs then CHSIZE_MASK else 0) ∧
    mkType c d p a rv.val cs &&& COMPRESSED = (if c then COMPRESSED else 0) ∧
    mkType c d p a rv.val cs &&& 3 = (if c then 1 else 0) ∧
    mkType c d p a rv.val cs &&& CHUNK_FLAG_PREPROC =
      (if p then CHUNK_FLAG_PREPROC else 0) ∧
    mkType c d p a rv.val cs &&& CHUNK_FLAG_DEDUP =
      (if d then CHUNK_FLAG_DEDUP else 0) ∧
    (mkType c d p a rv.val cs >>> 4) &&& 7 = (if a then rv.val else 0) := by
  decide

theorem mkType_lt (c d p a : Bool) {rv : Nat} (cs : Bool) (h : rv < 8) :
    mkType c d p a rv cs < 256 := (mkType_core c d p a cs ⟨rv, h⟩).1

theorem mkType_chsize (c d p a : Bool) {rv : Nat} (cs : Bool) (h : rv < 8) :
    mkType c d p a rv cs &&& CHSIZE_MASK = (if cs then CHSIZE_MASK else 0) :=
  (mkType_core c d p a cs ⟨rv, h⟩).2.1

theorem mkType_compressed (c d p a : Bool) {rv : Nat} (cs : Bool) (h : rv < 8) :
    mkType c d p a rv cs &&& COMPRESSED = (if c then COMPRESSED else 0) :=
  (mkType_core c d p a cs ⟨rv, h⟩).2.2.1

theorem mkType_low2 (c d p a : Bool) {rv : Nat} (cs : Bool) (h : rv < 8) :
    mkType c d p a rv cs &&& 3 = (if c then 1 else 0) :=
  (mkType_core c d p a cs ⟨rv, h⟩).2.2.2.1

theorem mkType_preproc (c d p a : Bool) {rv : Nat} (cs : Bool) (h : rv < 8) :
    mkType c d p a rv cs &&& CHUNK_FLAG_PREPROC =
      (if p then CHUNK_FLAG_PREPROC else 0) :=
  (mkType_core c d p a cs ⟨rv, h⟩).2.2.2.2.1

theorem mkType_dedup (c d p a : Bool) {rv : Nat} (cs : Bool) (h : rv < 8) :
    mkType c d p a rv cs &&& CHUNK_FLAG_DEDUP =
      (if d then CHUNK_FLAG_DEDUP else 0) :=
  (mkType_core c d p a cs ⟨rv, h⟩).2.2.2.2.2.1

theorem mkType_adapt_bits (c d p a : Bool) {rv : Nat} (cs : Bool) (h : rv < 8) :
    (mkType c d p a rv cs >>> 4) &&& 7 = (if a then rv else 0) :=
  (mkType_core c d p a cs ⟨rv, h⟩).2.2.2.2.2.2

/-- Flipping a bit below position 7 does not change the CHSIZE bit. -/
theorem flip_low_keeps_bit7 (t k : Nat) (hk : k < 7) :
    (t ^^^ 1 <<< k) &&& CHSIZE_MASK = t &&& CHSIZE_MASK := by
  rw [Nat.one_shiftLeft]
  show _ &&& 128 = _ &&& 128
  refine Nat.eq_of_testBit_eq fun i => ?_
  simp only [Nat.testBit_and, Nat.testBit_xor]
  rcases Decidable.em (i = 7) with h7 | h7
  · subst h7
    have hp : (2 ^ k : Nat).testBit 7 = false := by
      rw [Nat.testBit_two_pow]
      simp
      omega
    simp [hp]
  · have hm : (128 : Nat).testBit i = false := by
      show ((2 : Nat) ^ 7).testBit i = false
      rw [Nat.testBit_two_pow]
      simp
      omega
    simp [hm]

/-! ### Frame anatomy

The framed chunk decomposes as
`be64 wireLen ++ checksum ++ be32 crc ++ [flags] ++ payload ++ tail`; the
lemmas here extract each piece the way `perform_decompress` addresses it. -/

/-- Normal-form hypothesis for the adaptive sub-codec id: when adaptive
mode is on, the backend's return value fits in bits 6-4 (ids 1-4, or
`COMPRESS_NONE` after a failure). -/
def RvOk (cfg : Cfg) (ext : Ext) (chunk : List Nat) : Prop :=
  cfg.adapt_mode = true → (fallbackStage cfg ext chunk).2.1 < 8

theorem chunkFlags_norm (cfg : Cfg) (ext : Ext) (chunk : List Nat)
    (h : RvOk cfg ext chunk) :
    ∃ rv, rv < 8 ∧ chunkFlags cfg ext chunk =
      mkType (fallbackStage cfg ext chunk).1 false
        (cfg.lzp_preprocess || cfg.enable_delta2_encode) cfg.adapt_mode rv
        (decide (chunk.length < cfg.chunksize)) := by
  cases ha : cfg.adapt_mode with
  | false =>
    refine ⟨0, by omega, ?_⟩
    rw [chunkFlags, ha, mkType_adapt_false]
  | true => exact ⟨_, h ha, by rw [chunkFlags, ha]⟩

theorem chunkPayload_length_le (cfg : Cfg) (ext : Ext) (chunk : List Nat) :
    (chunkPayload cfg ext chunk).length ≤ chunk.length := by
  unfold chunkPayload fallbackStage
  rcases h : compressStage cfg ext chunk with ⟨res, buf⟩
  cases res with
  | none => simp [List.length_take]
  | some ro =>
    rcases ro with ⟨rv, out⟩
    simp only
    split
    next hc => simp [List.length_take]
    next hc =>
      show out.length ≤ chunk.length
      omega

theorem chunkTail_length_chs (cfg : Cfg) (chunk : List Nat)
    (h : chunk.length < cfg.chunksize) : (chunkTail cfg chunk).length = 8 := by
  simp [chunkTail, h, toBytesBE_length]

theorem chunkTail_nil (cfg : Cfg) (chunk : List Nat)
    (h : ¬ chunk.length < cfg.chunksize) : chunkTail cfg chunk = [] := by
  simp [chunkTail, h]

theorem decompCrcInput_shape_chs (ck : Nat) (lenBytes ckb mac : List Nat) (ty : Nat)
    (pay tail8 : List Nat) (h1 : ckb.length = ck) (h2 : mac.length = 4)
    (h4 : tail8.length = 8) (hty : ty &&& CHSIZE_MASK ≠ 0) :
    decompCrcInput ck lenBytes (ckb ++ (mac ++ ([ty] ++ (pay ++ tail8)))) =
      lenBytes ++ ckb ++ List.replicate 4 0 ++ [ty] ++ tail8 := by
  unfold decompCrcInput
  have hdrop : (ckb ++ (mac ++ ([ty] ++ (pay ++ tail8)))).drop (ck + 4) =
      [ty] ++ (pay ++ tail8) := by
    rw [← List.drop_drop, List.drop_left' h1, List.drop_left' h2]
  have hlen : (ckb ++ (mac ++ ([ty] ++ (pay ++ tail8)))).length =
      ck + 4 + 1 + pay.length + 8 := by
    simp [List.length_append, h1, h2, h4]
    omega
  have htail : (ckb ++ (mac ++ ([ty] ++ (pay ++ tail8)))).drop
      ((ckb ++ (mac ++ ([ty] ++ (pay ++ tail8)))).length - 8) = tail8 := by
    rw [hlen]
    have hassoc : ckb ++ (mac ++ ([ty] ++ (pay ++ tail8))) =
        (ckb ++ mac ++ [ty] ++ pay) ++ tail8 := by
      simp [List.append_assoc]
    rw [hassoc]
    refine List.drop_left' ?_
    simp [List.length_append, h1, h2]
    omega
  rw [hdrop, List.take_left' h1, htail]
  simp only [List.singleton_append, List.headD_cons, CHUNK_FLAG_SZ, hty,
    ne_eq, not_false_iff, if_pos, List.take_succ_cons, List.take_zero]
  have h8 : tail8.take 8 = tail8 := List.take_of_length_le (by omega)
  rw [h8]

theorem decompCrcInput_shape_nochs (ck : Nat) (lenBytes ckb mac : List Nat) (ty : Nat)
    (rest : List Nat) (h1 : ckb.length = ck) (h2 : mac.length = 4)
    (hty : ty &&& CHSIZE_MASK = 0) :
    decompCrcInput ck lenBytes (ckb ++ (mac ++ ([ty] ++ rest))) =
      lenBytes ++ ckb ++ List.replicate 4 0 ++ [ty] := by
  unfold decompCrcInput
  have hdrop : (ckb ++ (mac ++ ([ty] ++ rest))).drop (ck + 4) = [ty] ++ rest := by
    rw [← List.drop_drop, List.drop_left' h1, List.drop_left' h2]
  rw [hdrop, List.take_left' h1]
  simp [CHUNK_FLAG_SZ, hty, List.append_assoc]

/-- The stored mac field as `perform_decompress` reads it. -/
theorem crc_read_shape (ck : Nat) (ckb mac rest : List Nat)
    (h1 : ckb.length = ck) (h2 : mac.length = 4) :
    ((ckb ++ (mac ++ rest)).drop ck).take 4 = mac := by
  rw [List.drop_left' h1, List.take_left' h2]

theorem perform_compress_eq (cfg : Cfg) (ext : Ext) (chunk : List Nat) :
    perform_compress cfg ext chunk =
      toBytesBE 8 (chunkWireLen cfg ext chunk) ++
        (ext.cksum chunk ++
          (toBytesBE 4 (chunkCrc cfg ext chunk) ++
            ([chunkFlags cfg ext chunk] ++
              (chunkPayload cfg ext chunk ++ chunkTail cfg chunk)))) := by
  simp [perform_compress, List.append_assoc]

theorem perform_compress_take8 (cfg : Cfg) (ext : Ext) (chunk : List Nat) :
    (perform_compress cfg ext chunk).take 8 =
      toBytesBE 8 (chunkWireLen cfg ext chunk) := by
  rw [perform_compress_eq]
  exact List.take_left' (toBytesBE_length 8 _)

theorem perform_compress_drop8 (cfg : Cfg) (ext : Ext) (chunk : List Nat) :
    (perform_compress cfg ext chunk).drop 8 =
      ext.cksum chunk ++
        (toBytesBE 4 (chunkCrc cfg ext chunk) ++
          ([chunkFlags cfg ext chunk] ++
            (chunkPayload cfg ext chunk ++ chunkTail cfg chunk))) := by
  rw [perform_compress_eq]
  exact List.drop_left' (toBytesBE_length 8 _)

theorem chunkCrc_msg (cfg : Cfg) (ext : Ext) (chunk : List Nat) :
    chunkCrc cfg ext chunk =
      lzma_crc32
        ((toBytesBE 8 (chunkWireLen cfg ext chunk) ++ ext.cksum chunk ++
            List.replicate 4 0 ++ [chunkFlags cfg ext chunk]) ++
          chunkTail cfg chunk) 0 := by
  rw [chunkCrc, lzma_crc32_append]

/-- An unmodified framed chunk passes the decompress-side CRC check. -/
theorem chunk_crc_ok_intact (cfg : Cfg) (ext : Ext) (chunk : List Nat)
    (hck : (ext.cksum chunk).length = cfg.cksum_bytes)
    (hrv : RvOk cfg ext chunk) :
    chunk_crc_ok cfg.cksum_bytes ((perform_compress cfg ext chunk).take 8)
      ((perform_compress cfg ext chunk).drop 8) = true := by
  obtain ⟨rv, hrv8, hfl⟩ := chunkFlags_norm cfg ext chunk hrv
  have hcrclt : chunkCrc cfg ext chunk < 2 ^ 32 := by
    rw [chunkCrc]
    exact lzma_crc32_lt _ (lzma_crc32_lt _ (by norm_num))
  have hread : (((perform_compress cfg ext chunk).drop 8).drop
      cfg.cksum_bytes).take 4 = toBytesBE 4 (chunkCrc cfg ext chunk) := by
    rw [perform_compress_drop8]
    exact crc_read_shape _ _ _ _ hck (toBytesBE_length 4 _)
  have hval : fromBytesBE (toBytesBE 4 (chunkCrc cfg ext chunk)) =
      chunkCrc cfg ext chunk := by
    rw [fromBytesBE_toBytesBE]
    exact Nat.mod_eq_of_lt (by norm_num at hcrclt ⊢; omega)
  rw [chunk_crc_ok, hread, hval, perform_compress_take8, perform_compress_drop8]
  rcases Decidable.em (chunk.length < cfg.chunksize) with hchs | hchs
  · have hty : chunkFlags cfg ext chunk &&& CHSIZE_MASK ≠ 0 := by
      rw [hfl, mkType_chsize _ _ _ _ _ hrv8]
      simp [hchs, CHSIZE_MASK]
    rw [decompCrcInput_shape_chs _ _ _ _ _ _ _ hck (toBytesBE_length 4 _)
      (chunkTail_length_chs cfg chunk hchs) hty]
    rw [chunkCrc_msg]
    simp [List.append_assoc]
  · have hty : chunkFlags cfg ext chunk &&& CHSIZE_MASK = 0 := by
      rw [hfl, mkType_chsize _ _ _ _ _ hrv8]
      simp [hchs]
    rw [decompCrcInput_shape_nochs _ _ _ _ _ _ hck (toBytesBE_length 4 _) hty]
    rw [chunkCrc_msg, chunkTail_nil cfg chunk hchs]
    simp [List.append_assoc]

/-! ### Single-bit corruption of a framed chunk -/

theorem flipBit_frame (cfg : Cfg) (ext : Ext) (chunk : List Nat) (i k : Nat)
    (h8 : 8 ≤ i) :
    flipBit (perform_compress cfg ext chunk) i k =
      toBytesBE 8 (chunkWireLen cfg ext chunk) ++
        flipBit (ext.cksum chunk ++
          (toBytesBE 4 (chunkCrc cfg ext chunk) ++
            ([chunkFlags cfg ext chunk] ++
              (chunkPayload cfg ext chunk ++ chunkTail cfg chunk)))) (i - 8) k := by
  rw [perform_compress_eq, flipBit_append_right _ _ _ _ (by
    rw [toBytesBE_length]; omega)]
  rw [toBytesBE_length]

theorem flipBit_frame_take8 (cfg : Cfg) (ext : Ext) (chunk : List Nat) (i k : Nat)
    (h8 : 8 ≤ i) :
    (flipBit (perform_compress cfg ext chunk) i k).take 8 =
      toBytesBE 8 (chunkWireLen cfg ext chunk) := by
  rw [flipBit_frame cfg ext chunk i k h8]
  exact List.take_left' (toBytesBE_length 8 _)

theorem flipBit_frame_drop8 (cfg : Cfg) (ext : Ext) (chunk : List Nat) (i k : Nat)
    (h8 : 8 ≤ i) :
    (flipBit (perform_compress cfg ext chunk) i k).drop 8 =
      flipBit (ext.cksum chunk ++
        (toBytesBE 4 (chunkCrc cfg ext chunk) ++
          ([chunkFlags cfg ext chunk] ++
            (chunkPayload cfg ext chunk ++ chunkTail cfg chunk)))) (i - 8) k := by
  rw [flipBit_frame cfg ext chunk i k h8]
  exact List.drop_left' (toBytesBE_length 8 _)

/-- Flipping a bit of the stored mac makes the CRC check fail: the stored
value changes while the recomputed value does not. -/
theorem chunk_crc_flip_mac (cfg : Cfg) (ext : Ext) (chunk : List Nat)
    (hck : (ext.cksum chunk).length = cfg.cksum_bytes)
    (hrv : RvOk cfg ext chunk) (i k : Nat)
    (hi1 : 8 + cfg.cksum_bytes ≤ i) (hi2 : i < 8 + cfg.cksum_bytes + 4)
    (hk : k < 8) :
    chunk_crc_ok cfg.cksum_bytes
      ((flipBit (perform_compress cfg ext chunk) i k).take 8)
      ((flipBit (perform_compress cfg ext chunk) i k).drop 8) = false := by
  have h8 : 8 ≤ i := by omega
  rw [flipBit_frame_take8 cfg ext chunk i k h8, flipBit_frame_drop8 cfg ext chunk i k h8]
  set ckb := ext.cksum chunk with hckb
  set mac := toBytesBE 4 (chunkCrc cfg ext chunk) with hmac
  set ty := chunkFlags cfg ext chunk with hty
  set pay := chunkPayload cfg ext chunk with hpay
  set tl := chunkTail cfg chunk with htl
  have hmlen : mac.length = 4 := toBytesBE_length 4 _
  -- the flip lands inside the mac field
  have hstep : flipBit (ckb ++ (mac ++ ([ty] ++ (pay ++ tl)))) (i - 8) k =
      ckb ++ (flipBit mac (i - 8 - cfg.cksum_bytes) k ++ ([ty] ++ (pay ++ tl))) := by
    rw [flipBit_append_right _ _ _ _ (by omega : ckb.length ≤ i - 8)]
    rw [hck]
    rw [flipBit_append_left _ _ _ _ (by omega : i - 8 - cfg.cksum_bytes < mac.length)]
  rw [hstep]
  -- the mac bytes differ, the CRC input does not mention them
  obtain ⟨b, b1, hdec, hdec1, hblt, hb1lt, hbne, hplen⟩ :=
    flipBit_single_diff mac (i - 8 - cfg.cksum_bytes) k (by omega) hk
      (fun x hx => toBytesBE_lt 4 _ x hx)
  have hread : ((ckb ++ (flipBit mac (i - 8 - cfg.cksum_bytes) k ++
      ([ty] ++ (pay ++ tl)))).drop cfg.cksum_bytes).take 4 =
      flipBit mac (i - 8 - cfg.cksum_bytes) k := by
    refine crc_read_shape _ _ _ _ hck ?_
    rw [flipBit_length, hmlen]
  have hcrclt : chunkCrc cfg ext chunk < 2 ^ 32 := by
    rw [chunkCrc]
    exact lzma_crc32_lt _ (lzma_crc32_lt _ (by norm_num))
  have hvne : fromBytesBE (flipBit mac (i - 8 - cfg.cksum_bytes) k) ≠
      fromBytesBE mac := by
    rw [hdec1]
    conv_rhs => rw [hdec]
    exact fromBytesBE_ne_single _ _ (Ne.symm hbne)
  have hval : fromBytesBE mac = chunkCrc cfg ext chunk := by
    rw [hmac, fromBytesBE_toBytesBE]
    exact Nat.mod_eq_of_lt (by norm_num at hcrclt ⊢; omega)
  -- the recomputed CRC equals the original one
  have hmsg : lzma_crc32 (decompCrcInput cfg.cksum_bytes
      (toBytesBE 8 (chunkWireLen cfg ext chunk))
      (ckb ++ (flipBit mac (i - 8 - cfg.cksum_bytes) k ++ ([ty] ++ (pay ++ tl)))))
      0 = chunkCrc cfg ext chunk := by
    obtain ⟨rv, hrv8, hfl⟩ := chunkFlags_norm cfg ext chunk hrv
    have hmlen2 : (flipBit mac (i - 8 - cfg.cksum_bytes) k).length = 4 := by
      rw [flipBit_length, hmlen]
    rcases Decidable.em (chunk.length < cfg.chunksize) with hchs | hchs
    · have htybit : ty &&& CHSIZE_MASK ≠ 0 := by
        rw [hty, hfl, mkType_chsize _ _ _ _ _ hrv8]
        simp [hchs, CHSIZE_MASK]
      rw [decompCrcInput_shape_chs _ _ _ _ _ _ _ hck hmlen2
        (chunkTail_length_chs cfg chunk hchs) htybit]
      rw [chunkCrc_msg]
    · have htybit : ty &&& CHSIZE_MASK = 0 := by
        rw [hty, hfl, mkType_chsize _ _ _ _ _ hrv8]
        simp [hchs]
      rw [decompCrcInput_shape_nochs _ _ _ _ _ _ hck hmlen2 htybit]
      rw [chunkCrc_msg, chunkTail_nil cfg chunk hchs]
      simp [List.append_assoc]
  rw [chunk_crc_ok, hread, hmsg]
  simp only [beq_eq_false_iff_ne, ne_eq]
  rw [← hval]
  exact hvne

theorem flip_byte_ne (a k : Nat) : a ^^^ 1 <<< k ≠ a := by
  intro h
  have h0 : (1 : Nat) <<< k = 0 := by
    have heq : a ^^^ (1 <<< k) = a ^^^ 0 := by rw [Nat.xor_zero]; exact h
    exact Nat.xor_right_injective heq
  rw [Nat.one_shiftLeft] at h0
  exact absurd h0 (Nat.pos_iff_ne_zero.mp (Nat.pos_pow_of_pos _ (by omega)))

theorem flipBit_cons_zero (a : Nat) (l : List Nat) (k : Nat) :
    flipBit (a :: l) 0 k = (a ^^^ 1 <<< k) :: l := by
  simp [flipBit]

/-- Flipping a bit of the stored plaintext checksum makes the CRC check
fail: the recomputed CRC changes, the stored one does not. -/
theorem chunk_crc_flip_cksum (cfg : Cfg) (ext : Ext) (chunk : List Nat)
    (hck : (ext.cksum chunk).length = cfg.cksum_bytes)
    (hcklt : ∀ b ∈ ext.cksum chunk, b < 256)
    (hrv : RvOk cfg ext chunk) (i k : Nat)
    (hi1 : 8 ≤ i) (hi2 : i < 8 + cfg.cksum_bytes) (hk : k < 8) :
    chunk_crc_ok cfg.cksum_bytes
      ((flipBit (perform_compress cfg ext chunk) i k).take 8)
      ((flipBit (perform_compress cfg ext chunk) i k).drop 8) = false := by
  rw [flipBit_frame_take8 cfg ext chunk i k hi1, flipBit_frame_drop8 cfg ext chunk i k hi1]
  set ckb := ext.cksum chunk with hckb
  set mac := toBytesBE 4 (chunkCrc cfg ext chunk) with hmac
  set ty := chunkFlags cfg ext chunk with hty
  set pay := chunkPayload cfg ext chunk with hpay
  set tl := chunkTail cfg chunk with htl
  have hmlen : mac.length = 4 := toBytesBE_length 4 _
  have hstep : flipBit (ckb ++ (mac ++ ([ty] ++ (pay ++ tl)))) (i - 8) k =
      flipBit ckb (i - 8) k ++ (mac ++ ([ty] ++ (pay ++ tl))) := by
    exact flipBit_append_left _ _ _ _ (by omega)
  rw [hstep]
  obtain ⟨b, b1, hdec, hdec1, hblt, hb1lt, hbne, hplen⟩ :=
    flipBit_single_diff ckb (i - 8) k (by omega) hk hcklt
  have hcklen2 : (flipBit ckb (i - 8) k).length = cfg.cksum_bytes := by
    rw [flipBit_length, hck]
  have hread : ((flipBit ckb (i - 8) k ++ (mac ++ ([ty] ++ (pay ++ tl)))).drop
      cfg.cksum_bytes).take 4 = mac :=
    crc_read_shape _ _ _ _ hcklen2 hmlen
  have hcrclt : chunkCrc cfg ext chunk < 2 ^ 32 := by
    rw [chunkCrc]
    exact lzma_crc32_lt _ (lzma_crc32_lt _ (by norm_num))
  have hval : fromBytesBE mac = chunkCrc cfg ext chunk := by
    rw [hmac, fromBytesBE_toBytesBE]
    exact Nat.mod_eq_of_lt (by norm_num at hcrclt ⊢; omega)
  obtain ⟨rv, hrv8, hfl⟩ := chunkFlags_norm cfg ext chunk hrv
  -- the recomputed CRC differs from the original
  have hmsgne : lzma_crc32 (decompCrcInput cfg.cksum_bytes
      (toBytesBE 8 (chunkWireLen cfg ext chunk))
      (flipBit ckb (i - 8) k ++ (mac ++ ([ty] ++ (pay ++ tl))))) 0 ≠
      chunkCrc cfg ext chunk := by
    rcases Decidable.em (chunk.length < cfg.chunksize) with hchs | hchs
    · have htybit : ty &&& CHSIZE_MASK ≠ 0 := by
        rw [hty, hfl, mkType_chsize _ _ _ _ _ hrv8]
        simp [hchs, CHSIZE_MASK]
      rw [decompCrcInput_shape_chs _ _ _ _ _ _ _ hcklen2 hmlen
        (chunkTail_length_chs cfg chunk hchs) htybit]
      rw [chunkCrc_msg, ← hckb, ← htl, ← hty]
      have H := lzma_crc32_single_diff
        (toBytesBE 8 (chunkWireLen cfg ext chunk) ++ ckb.take (i - 8))
        (ckb.drop (i - 8 + 1) ++ List.replicate 4 0 ++ [ty] ++ tl)
        hb1lt hblt (Ne.symm hbne)
      rw [hdec1]
      conv_rhs => rw [hdec]
      simp only [List.append_assoc, List.cons_append] at H ⊢
      exact H
    · have htybit : ty &&& CHSIZE_MASK = 0 := by
        rw [hty, hfl, mkType_chsize _ _ _ _ _ hrv8]
        simp [hchs]
      rw [decompCrcInput_shape_nochs _ _ _ _ _ _ hcklen2 hmlen htybit]
      rw [chunkCrc_msg, ← hckb, ← hty, chunkTail_nil cfg chunk hchs, List.append_nil]
      have H := lzma_crc32_single_diff
        (toBytesBE 8 (chunkWireLen cfg ext chunk) ++ ckb.take (i - 8))
        (ckb.drop (i - 8 + 1) ++ List.replicate 4 0 ++ [ty])
        hb1lt hblt (Ne.symm hbne)
      rw [hdec1]
      conv_rhs => rw [hdec]
      simp only [List.append_assoc, List.cons_append] at H ⊢
      exact H
  rw [chunk_crc_ok, hread, hval]
  simp only [beq_eq_false_iff_ne, ne_eq]
  exact fun h => hmsgne h.symm

/-- Flipping a bit of the flags byte below the CHSIZE bit makes the CRC
check fail. -/
theorem chunk_crc_flip_flags (cfg : Cfg) (ext : Ext) (chunk : List Nat)
    (hck : (ext.cksum chunk).length = cfg.cksum_bytes)
    (hrv : RvOk cfg ext chunk) (k : Nat) (hk : k < 7) :
    chunk_crc_ok cfg.cksum_bytes
      ((flipBit (perform_compress cfg ext chunk) (8 + cfg.cksum_bytes + 4) k).take 8)
      ((flipBit (perform_compress cfg ext chunk) (8 + cfg.cksum_bytes + 4) k).drop 8) =
      false := by
  have hi1 : 8 ≤ 8 + cfg.cksum_bytes + 4 := by omega
  rw [flipBit_frame_take8 cfg ext chunk _ k hi1, flipBit_frame_drop8 cfg ext chunk _ k hi1]
  set ckb := ext.cksum chunk with hckb
  set mac := toBytesBE 4 (chunkCrc cfg ext chunk) with hmac
  set ty := chunkFlags cfg ext chunk with hty
  set pay := chunkPayload cfg ext chunk with hpay
  set tl := chunkTail cfg chunk with htl
  have hmlen : mac.length = 4 := toBytesBE_length 4 _
  obtain ⟨rv, hrv8, hfl⟩ := chunkFlags_norm cfg ext chunk hrv
  have htylt : ty < 256 := by
    rw [hty, hfl]
    exact mkType_lt _ _ _ _ _ hrv8
  have hstep : flipBit (ckb ++ (mac ++ ([ty] ++ (pay ++ tl))))
      (8 + cfg.cksum_bytes + 4 - 8) k =
      ckb ++ (mac ++ ((ty ^^^ 1 <<< k) :: (pay ++ tl))) := by
    rw [flipBit_append_right _ _ _ _ (by omega : ckb.length ≤ 8 + cfg.cksum_bytes + 4 - 8)]
    rw [hck]
    rw [flipBit_append_right _ _ _ _ (by omega : mac.length ≤ 8 + cfg.cksum_bytes + 4 - 8 - cfg.cksum_bytes)]
    rw [hmlen]
    have h0 : 8 + cfg.cksum_bytes + 4 - 8 - cfg.cksum_bytes - 4 = 0 := by omega
    rw [h0, List.singleton_append, flipBit_cons_zero]
  rw [hstep]
  set ty1 := ty ^^^ 1 <<< k with hty1
  have hty1lt : ty1 < 256 :=
    Nat.xor_lt_two_pow (n := 8) htylt (by
      rw [Nat.one_shiftLeft]
      exact Nat.pow_lt_pow_right (by omega) (by omega))
  have htyne : ty1 ≠ ty := flip_byte_ne ty k
  have hbit7 : ty1 &&& CHSIZE_MASK = ty &&& CHSIZE_MASK :=
    flip_low_keeps_bit7 ty k hk
  have hread : ((ckb ++ (mac ++ (ty1 :: (pay ++ tl)))).drop
      cfg.cksum_bytes).take 4 = mac :=
    crc_read_shape _ _ _ _ hck hmlen
  have hcrclt : chunkCrc cfg ext chunk < 2 ^ 32 := by
    rw [chunkCrc]
    exact lzma_crc32_lt _ (lzma_crc32_lt _ (by norm_num))
  have hval : fromBytesBE mac = chunkCrc cfg ext chunk := by
    rw [hmac, fromBytesBE_toBytesBE]
    exact Nat.mod_eq_of_lt (by norm_num at hcrclt ⊢; omega)
  have hcons : ty1 :: (pay ++ tl) = [ty1] ++ (pay ++ tl) := by simp
  have hmsgne : lzma_crc32 (decompCrcInput cfg.cksum_bytes
      (toBytesBE 8 (chunkWireLen cfg ext chunk))
      (ckb ++ (mac ++ (ty1 :: (pay ++ tl))))) 0 ≠
      chunkCrc cfg ext chunk := by
    rw [hcons]
    rcases Decidable.em (chunk.length < cfg.chunksize) with hchs | hchs
    · have htybit : ty &&& CHSIZE_MASK ≠ 0 := by
        rw [hty, hfl, mkType_chsize _ _ _ _ _ hrv8]
        simp [hchs, CHSIZE_MASK]
      have hty1bit : ty1 &&& CHSIZE_MASK ≠ 0 := by rw [hbit7]; exact htybit
      rw [decompCrcInput_shape_chs _ _ _ _ _ _ _ hck hmlen
        (chunkTail_length_chs cfg chunk hchs) hty1bit]
      rw [chunkCrc_msg, ← hckb, ← htl, ← hty]
      have H := lzma_crc32_single_diff
        (toBytesBE 8 (chunkWireLen cfg ext chunk) ++ ckb ++ List.replicate 4 0)
        tl hty1lt htylt htyne
      simp only [List.append_assoc, List.cons_append] at H ⊢
      exact H
    · have htybit : ty &&& CHSIZE_MASK = 0 := by
        rw [hty, hfl, mkType_chsize _ _ _ _ _ hrv8]
        simp [hchs]
      have hty1bit : ty1 &&& CHSIZE_MASK = 0 := by rw [hbit7]; exact htybit
      rw [decompCrcInput_shape_nochs _ _ _ _ _ _ hck hmlen hty1bit]
      rw [chunkCrc_msg, ← hckb, ← hty, chunkTail_nil cfg chunk hchs, List.append_nil]
      have H := lzma_crc32_single_diff
        (toBytesBE 8 (chunkWireLen cfg ext chunk) ++ ckb ++ List.replicate 4 0)
        [] hty1lt htylt htyne
      simp only [List.append_assoc, List.cons_append] at H ⊢
      exact H
  rw [chunk_crc_ok, hread, hval]
  simp only [beq_eq_false_iff_ne, ne_eq]
  exact fun h => hmsgne h.symm

/-- Flipping a bit of the trailing original-size field makes the CRC check
fail. -/
theorem chunk_crc_flip_tail (cfg : Cfg) (ext : Ext) (chunk : List Nat)
    (hck : (ext.cksum chunk).length = cfg.cksum_bytes)
    (hrv : RvOk cfg ext chunk) (i k : Nat)
    (hi1 : 8 + cfg.cksum_bytes + 4 + 1 + (chunkPayload cfg ext chunk).length ≤ i)
    (hi2 : i < (perform_compress cfg ext chunk).length) (hk : k < 8) :
    chunk_crc_ok cfg.cksum_bytes
      ((flipBit (perform_compress cfg ext chunk) i k).take 8)
      ((flipBit (perform_compress cfg ext chunk) i k).drop 8) = false := by
  have hwlen : (perform_compress cfg ext chunk).length =
      8 + cfg.cksum_bytes + 4 + 1 + (chunkPayload cfg ext chunk).length +
        (chunkTail cfg chunk).length := by
    rw [perform_compress_eq]
    simp [List.length_append, toBytesBE_length, hck]
    omega
  have hchs : chunk.length < cfg.chunksize := by
    by_contra hc
    rw [chunkTail_nil cfg chunk hc] at hwlen
    simp at hwlen
    omega
  have htlen : (chunkTail cfg chunk).length = 8 := chunkTail_length_chs cfg chunk hchs
  have hi8 : 8 ≤ i := by omega
  rw [flipBit_frame_take8 cfg ext chunk i k hi8, flipBit_frame_drop8 cfg ext chunk i k hi8]
  set ckb := ext.cksum chunk with hckb
  set mac := toBytesBE 4 (chunkCrc cfg ext chunk) with hmac
  set ty := chunkFlags cfg ext chunk with hty
  set pay := chunkPayload cfg ext chunk with hpay
  set tl := chunkTail cfg chunk with htl
  have hmlen : mac.length = 4 := toBytesBE_length 4 _
  set j := i - 8 - cfg.cksum_bytes - 4 - 1 - pay.length with hj
  have hstep : flipBit (ckb ++ (mac ++ ([ty] ++ (pay ++ tl)))) (i - 8) k =
      ckb ++ (mac ++ ([ty] ++ (pay ++ flipBit tl j k))) := by
    rw [flipBit_append_right _ _ _ _ (by omega : ckb.length ≤ i - 8)]
    rw [hck]
    rw [flipBit_append_right _ _ _ _ (by omega : mac.length ≤ i - 8 - cfg.cksum_bytes)]
    rw [hmlen]
    rw [flipBit_append_right _ _ _ _
      (by simp only [List.length_singleton]; omega :
        ([ty] : List Nat).length ≤ i - 8 - cfg.cksum_bytes - 4)]
    rw [flipBit_append_right _ _ _ _
      (by simp only [List.length_singleton]; omega :
        pay.length ≤ i - 8 - cfg.cksum_bytes - 4 - ([ty] : List Nat).length)]
    simp only [List.length_singleton]
  rw [hstep]
  have hjlt : j < tl.length := by rw [htlen]; omega
  obtain ⟨b, b1, hdec, hdec1, hblt, hb1lt, hbne, hplen⟩ :=
    flipBit_single_diff tl j k hjlt hk (by
      rw [htl, chunkTail, if_pos hchs]
      exact toBytesBE_lt 8 _)
  have htlen2 : (flipBit tl j k).length = 8 := by rw [flipBit_length, htlen]
  have hread : ((ckb ++ (mac ++ ([ty] ++ (pay ++ flipBit tl j k)))).drop
      cfg.cksum_bytes).take 4 = mac :=
    crc_read_shape _ _ _ _ hck hmlen
  have hcrclt : chunkCrc cfg ext chunk < 2 ^ 32 := by
    rw [chunkCrc]
    exact lzma_crc32_lt _ (lzma_crc32_lt _ (by norm_num))
  have hval : fromBytesBE mac = chunkCrc cfg ext chunk := by
    rw [hmac, fromBytesBE_toBytesBE]
    exact Nat.mod_eq_of_lt (by norm_num at hcrclt ⊢; omega)
  obtain ⟨rv, hrv8, hfl⟩ := chunkFlags_norm cfg ext chunk hrv
  have htybit : ty &&& CHSIZE_MASK ≠ 0 := by
    rw [hty, hfl, mkType_chsize _ _ _ _ _ hrv8]
    simp [hchs, CHSIZE_MASK]
  have hmsgne : lzma_crc32 (decompCrcInput cfg.cksum_bytes
      (toBytesBE 8 (chunkWireLen cfg ext chunk))
      (ckb ++ (mac ++ ([ty] ++ (pay ++ flipBit tl j k))))) 0 ≠
      chunkCrc cfg ext chunk := by
    rw [decompCrcInput_shape_chs _ _ _ _ _ _ _ hck hmlen htlen2 htybit]
    rw [chunkCrc_msg, ← hckb, ← htl, ← hty]
    have H := lzma_crc32_single_diff
      (toBytesBE 8 (chunkWireLen cfg ext chunk) ++ ckb ++ List.replicate 4 0 ++
        [ty] ++ tl.take j)
      (tl.drop (j + 1)) hb1lt hblt (Ne.symm hbne)
    rw [hdec1]
    conv_rhs => rw [hdec]
    simp only [List.append_assoc, List.cons_append] at H ⊢
    exact H
  rw [chunk_crc_ok, hread, hval]
  simp only [beq_eq_false_iff_ne, ne_eq]
  exact fun h => hmsgne h.symm

/-- Flipping a bit anywhere inside the compressed payload leaves the CRC
check passing: the payload is not covered by the chunk CRC32. -/
theorem chunk_crc_flip_payload (cfg : Cfg) (ext : Ext) (chunk : List Nat)
    (hck : (ext.cksum chunk).length = cfg.cksum_bytes)
    (hrv : RvOk cfg ext chunk) (i k : Nat)
    (hi1 : 8 + cfg.cksum_bytes + 4 + 1 ≤ i)
    (hi2 : i < 8 + cfg.cksum_bytes + 4 + 1 + (chunkPayload cfg ext chunk).length) :
    chunk_crc_ok cfg.cksum_bytes
      ((flipBit (perform_compress cfg ext chunk) i k).take 8)
      ((flipBit (perform_compress cfg ext chunk) i k).drop 8) = true := by
  have hi8 : 8 ≤ i := by omega
  rw [flipBit_frame_take8 cfg ext chunk i k hi8, flipBit_frame_drop8 cfg ext chunk i k hi8]
  set ckb := ext.cksum chunk with hckb
  set mac := toBytesBE 4 (chunkCrc cfg ext chunk) with hmac
  set ty := chunkFlags cfg ext chunk with hty
  set pay := chunkPayload cfg ext chunk with hpay
  set tl := chunkTail cfg chunk with htl
  have hmlen : mac.length = 4 := toBytesBE_length 4 _
  set j := i - 8 - cfg.cksum_bytes - 4 - 1 with hj
  have hstep : flipBit (ckb ++ (mac ++ ([ty] ++ (pay ++ tl)))) (i - 8) k =
      ckb ++ (mac ++ ([ty] ++ (flipBit pay j k ++ tl))) := by
    rw [flipBit_append_right _ _ _ _ (by omega : ckb.length ≤ i - 8)]
    rw [hck]
    rw [flipBit_append_right _ _ _ _ (by omega : mac.length ≤ i - 8 - cfg.cksum_bytes)]
    rw [hmlen]
    rw [flipBit_append_right _ _ _ _
      (by simp; omega : ([ty] : List Nat).length ≤ i - 8 - cfg.cksum_bytes - 4)]
    rw [flipBit_append_left _ _ _ _ (by simp only [List.length_singleton]; omega)]
    simp only [List.length_singleton]
  rw [hstep]
  have hpaylen2 : (flipBit pay j k).length = pay.length := flipBit_length _ _ _
  have hread : ((ckb ++ (mac ++ ([ty] ++ (flipBit pay j k ++ tl)))).drop
      cfg.cksum_bytes).take 4 = mac :=
    crc_read_shape _ _ _ _ hck hmlen
  have hcrclt : chunkCrc cfg ext chunk < 2 ^ 32 := by
    rw [chunkCrc]
    exact lzma_crc32_lt _ (lzma_crc32_lt _ (by norm_num))
  have hval : fromBytesBE mac = chunkCrc cfg ext chunk := by
    rw [hmac, fromBytesBE_toBytesBE]
    exact Nat.mod_eq_of_lt (by norm_num at hcrclt ⊢; omega)
  obtain ⟨rv, hrv8, hfl⟩ := chunkFlags_norm cfg ext chunk hrv
  have hmsg : lzma_crc32 (decompCrcInput cfg.cksum_bytes
      (toBytesBE 8 (chunkWireLen cfg ext chunk))
      (ckb ++ (mac ++ ([ty] ++ (flipBit pay j k ++ tl))))) 0 =
      chunkCrc cfg ext chunk := by
    rcases Decidable.em (chunk.length < cfg.chunksize) with hchs | hchs
    · have htybit : ty &&& CHSIZE_MASK ≠ 0 := by
        rw [hty, hfl, mkType_chsize _ _ _ _ _ hrv8]
        simp [hchs, CHSIZE_MASK]
      rw [decompCrcInput_shape_chs _ _ _ _ _ _ _ hck hmlen
        (chunkTail_length_chs cfg chunk hchs) htybit]
      rw [chunkCrc_msg, ← hckb, ← htl, ← hty]
    · have htybit : ty &&& CHSIZE_MASK = 0 := by
        rw [hty, hfl, mkType_chsize _ _ _ _ _ hrv8]
        simp [hchs]
      rw [decompCrcInput_shape_nochs _ _ _ _ _ _ hck hmlen htybit]
      rw [chunkCrc_msg, ← hckb, ← hty, chunkTail_nil cfg chunk hchs, List.append_nil]
  rw [chunk_crc_ok, hread, hval, hmsg]
  simp

/-- When the length sanity check passes and the CRC check fails,
`perform_decompress` stops with the CRC error - before any decompression
or plaintext production. -/
theorem perform_decompress_crc_error (cfg : Cfg) (ext : Ext) (wire : List Nat)
    (hsize : ¬ cfg.chunksize + 256 < fromBytesBE (wire.take 8))
    (hcrc : chunk_crc_ok cfg.cksum_bytes (wire.take 8) (wire.drop 8) = false) :
    perform_decompress cfg ext wire = .error "Header CRC verification failed" := by
  simp only [perform_decompress]
  rw [if_neg hsize, if_pos hcrc]

/-- The stored wire length field reads back as `chunkWireLen`, which passes
the oversize sanity check. -/
theorem wireLen_read (cfg : Cfg) (ext : Ext) (chunk : List Nat)
    (hlen : chunk.length ≤ cfg.chunksize) (hcs : cfg.chunksize + 256 < 2 ^ 64) :
    fromBytesBE ((perform_compress cfg ext chunk).take 8) =
      chunkWireLen cfg ext chunk ∧
    ¬ cfg.chunksize + 256 < fromBytesBE ((perform_compress cfg ext chunk).take 8) := by
  have hwl : chunkWireLen cfg ext chunk ≤ cfg.chunksize + 8 := by
    have hp := chunkPayload_length_le cfg ext chunk
    unfold chunkWireLen
    rcases Decidable.em (chunk.length < cfg.chunksize) with h | h <;>
      simp [h, ORIGINAL_CHUNKSZ] <;> omega
  have hread : fromBytesBE ((perform_compress cfg ext chunk).take 8) =
      chunkWireLen cfg ext chunk := by
    rw [perform_compress_take8, fromBytesBE_toBytesBE]
    exact Nat.mod_eq_of_lt (by norm_num; omega)
  exact ⟨hread, by omega⟩

/-- Claim C2, amended.  In non-crypto mode the per-chunk mac field written
by `perform_compress` is a CRC32 covering `len_cmp`, the stored plaintext
checksum, the zeroed mac slot, the flags byte and the optional trailing
original size - but not the compressed payload (conjunct 1; the payload
appears after the mac and outside the covered bytes).  An intact chunk
passes the verification (conjunct 2).  Flipping any single bit of the
stored checksum, the mac slot, the flags byte below its CHSIZE bit, or the
trailing original-size field causes the CRC32 verification in
`perform_decompress` to fail before any plaintext is produced (conjunct 3),
while flipping any payload bit passes the CRC32 check, payload corruption
being caught only by the post-decompression checksum (conjunct 4). -/
theorem C2_chunk_mac_coverage (cfg : Cfg) (ext : Ext) (chunk : List Nat)
    (hck : (ext.cksum chunk).length = cfg.cksum_bytes)
    (hcklt : ∀ b ∈ ext.cksum chunk, b < 256)
    (hrv : RvOk cfg ext chunk)
    (hlen : chunk.length ≤ cfg.chunksize)
    (hcs : cfg.chunksize + 256 < 2 ^ 64) :
    perform_compress cfg ext chunk =
      toBytesBE 8 (chunkWireLen cfg ext chunk) ++
        (ext.cksum chunk ++
          (toBytesBE 4 (lzma_crc32
            ((toBytesBE 8 (chunkWireLen cfg ext chunk) ++ ext.cksum chunk ++
                List.replicate 4 0 ++ [chunkFlags cfg ext chunk]) ++
              chunkTail cfg chunk) 0) ++
            ([chunkFlags cfg ext chunk] ++
              (chunkPayload cfg ext chunk ++ chunkTail cfg chunk)))) ∧
    chunk_crc_ok cfg.cksum_bytes ((perform_compress cfg ext chunk).take 8)
      ((perform_compress cfg ext chunk).drop 8) = true ∧
    (∀ i k, k < 8 →
      ((8 ≤ i ∧ i < 8 + cfg.cksum_bytes + 4) ∨
        (i = 8 + cfg.cksum_bytes + 4 ∧ k < 7) ∨
        (8 + cfg.cksum_bytes + 4 + 1 + (chunkPayload cfg ext chunk).length ≤ i ∧
          i < (perform_compress cfg ext chunk).length)) →
      perform_decompress cfg ext (flipBit (perform_compress cfg ext chunk) i k) =
        .error "Header CRC verification failed") ∧
    (∀ i k, 8 + cfg.cksum_bytes + 4 + 1 ≤ i →
      i < 8 + cfg.cksum_bytes + 4 + 1 + (chunkPayload cfg ext chunk).length →
      chunk_crc_ok cfg.cksum_bytes
        ((flipBit (perform_compress cfg ext chunk) i k).take 8)
        ((flipBit (perform_compress cfg ext chunk) i k).drop 8) = true) := by
  refine ⟨?_, chunk_crc_ok_intact cfg ext chunk hck hrv, ?_, ?_⟩
  · rw [← chunkCrc_msg, perform_compress_eq]
  · intro i k hk hreg
    have hi8 : 8 ≤ i := by rcases hreg with ⟨h, _⟩ | ⟨h, _⟩ | ⟨h, _⟩ <;> omega
    have hsize : ¬ cfg.chunksize + 256 <
        fromBytesBE ((flipBit (perform_compress cfg ext chunk) i k).take 8) := by
      rw [flipBit_frame_take8 cfg ext chunk i k hi8, ← perform_compress_take8]
      exact (wireLen_read cfg ext chunk hlen hcs).2
    refine perform_decompress_crc_error cfg ext _ hsize ?_
    rcases hreg with ⟨h1, h2⟩ | ⟨h1, h2⟩ | ⟨h1, h2⟩
    · rcases Decidable.em (i < 8 + cfg.cksum_bytes) with hcksum | hmac
      · exact chunk_crc_flip_cksum cfg ext chunk hck hcklt hrv i k h1 hcksum hk
      · exact chunk_crc_flip_mac cfg ext chunk hck hrv i k (by omega) h2 hk
    · subst h1
      exact chunk_crc_flip_flags cfg ext chunk hck hrv k h2
    · exact chunk_crc_flip_tail cfg ext chunk hck hrv i k h1 h2 hk
  · intro i k h1 h2
    exact chunk_crc_flip_payload cfg ext chunk hck hrv i k h1 h2

/-! ### Concrete instances used by witnesses and counterexamples -/

/-- Toy collaborators: the backend always errors (as lzfx does on
incompressible data), no preprocessors, 2-byte checksum `(length, sum)`. -/
def extFail : Ext :=
  ⟨fun _ => none, fun _ => none, fun _ _ => none, fun _ => none,
    fun _ => none, fun _ _ => none,
    fun l => [l.length % 256, l.sum % 256]⟩

/-- Plain configuration: 2-byte checksum, chunk size 20, no preprocessing,
no dedup, no adaptive mode. -/
def cfgPlain : Cfg := ⟨2, 20, false, false, false, 0⟩

/-- Claim C2, counterexample to the claim as stated: flipping a payload bit
(bit 0 of byte 15, inside the stored chunk data) does not fail the CRC32
verification; decompression proceeds, produces plaintext and only the
post-decompression checksum comparison rejects the chunk. -/
theorem C2_counterexample :
    chunk_crc_ok 2
      ((flipBit (perform_compress cfgPlain extFail [1, 2, 3, 4]) 15 0).take 8)
      ((flipBit (perform_compress cfgPlain extFail [1, 2, 3, 4]) 15 0).drop 8) =
      true ∧
    perform_decompress cfgPlain extFail
      (flipBit (perform_compress cfgPlain extFail [1, 2, 3, 4]) 15 0) =
      .error "checksums do not match" := by
  constructor
  · decide
  · rfl

/-- Claim C2, witness: the amended theorem applied at a concrete chunk and
a concrete protected position (bit 3 of byte 10, inside the mac slot). -/
theorem C2_witness :
    perform_decompress cfgPlain extFail
      (flipBit (perform_compress cfgPlain extFail [1, 2, 3, 4]) 10 3) =
      .error "Header CRC verification failed" :=
  (C2_chunk_mac_coverage cfgPlain extFail [1, 2, 3, 4] (by decide) (by decide)
    (by intro h; simp [cfgPlain] at h) (by decide) (by decide)).2.2.1 10 3
    (by decide) (Or.inl (by decide))

/-! ### Claim C9: chunk flag byte layout -/

theorem nat_or_and_self (a b : Nat) : (a ||| b) &&& b = b := by
  refine Nat.eq_of_testBit_eq fun i => ?_
  simp only [Nat.testBit_and, Nat.testBit_or]
  cases a.testBit i <;> cases b.testBit i <;> rfl

/-- Claim C9: the chunk flag byte assembled by `perform_compress` follows
the layout bit 7 = CHSIZE_MASK, bits 6-4 = adaptive sub-algorithm id (0
when the codec is non-adaptive), bit 3 = CHUNK_FLAG_PREPROC, bit 2 =
CHUNK_FLAG_DEDUP, bits 1-0 = 00 for a raw chunk and 01 for a compressed
chunk.  The flag constants are modelled from the spec (`pcompress.h` is not
among the sources).  The last conjunct ties the layout to the byte actually
emitted on the non-dedup path. -/
theorem C9_chunk_flag_layout (cfg : Cfg) (ext : Ext) (chunk : List Nat)
    (hrvok : RvOk cfg ext chunk)
    (c d p a : Bool) (rv : Nat) (cs : Bool) (hrv : rv < 8) :
    (mkType c d p a rv cs &&& CHSIZE_MASK = if cs then CHSIZE_MASK else 0) ∧
    ((mkType c d p a rv cs >>> 4) &&& 7 = if a then rv else 0) ∧
    (mkType c d p a rv cs &&& CHUNK_FLAG_PREPROC =
      if p then CHUNK_FLAG_PREPROC else 0) ∧
    (mkType c d p a rv cs &&& CHUNK_FLAG_DEDUP =
      if d then CHUNK_FLAG_DEDUP else 0) ∧
    (mkType c d p a rv cs &&& 3 = if c then 1 else 0) ∧
    (∃ rv2, rv2 < 8 ∧ chunkFlags cfg ext chunk =
      mkType (fallbackStage cfg ext chunk).1 false
        (cfg.lzp_preprocess || cfg.enable_delta2_encode) cfg.adapt_mode rv2
        (decide (chunk.length < cfg.chunksize))) :=
  ⟨mkType_chsize c d p a cs hrv, mkType_adapt_bits c d p a cs hrv,
    mkType_preproc c d p a cs hrv, mkType_dedup c d p a cs hrv,
    mkType_low2 c d p a cs hrv, chunkFlags_norm cfg ext chunk hrvok⟩

/-- Claim C9, witness at a concrete flag combination. -/
theorem C9_witness :
    mkType true true true true 3 true &&& CHSIZE_MASK = CHSIZE_MASK ∧
    (mkType true true true true 3 true >>> 4) &&& 7 = 3 := by
  have h := C9_chunk_flag_layout cfgPlain extFail [1, 2, 3, 4]
    (by intro hcon; simp [cfgPlain] at hcon) true true true true 3 true (by omega)
  exact ⟨by simpa using h.1, by simpa using h.2.1⟩

/-! ### Claim C3: single-chunk archives -/

/-- Claim C3, counterexample to the claim as stated: for a 4-byte regular
file with configured chunk size 2048, `start_compress` adjusts the chunk
size down to the file size, so the single chunk exactly fills it and its
flag byte has CHSIZE_MASK clear with no appended original size (the claim
asserts CHSIZE_MASK is set). -/
theorem C3_counterexample :
    (start_compress_adjust 4 2048).2 = true ∧
    chunkFlags ⟨2, (start_compress_adjust 4 2048).1, false, false, false, 0⟩
      extFail [1, 2, 3, 4] &&& CHSIZE_MASK = 0 ∧
    chunkTail ⟨2, (start_compress_adjust 4 2048).1, false, false, false, 0⟩
      [1, 2, 3, 4] = [] := by
  refine ⟨by decide, by decide, by decide⟩

/-- Claim C3, amended: for a regular file whose size is positive and at
most the configured chunk size, `start_compress` flags the archive as
single-chunk and sets FLAG_SINGLE_CHUNK in the header; since the chunk
size is adjusted down to the file size, the single chunk's flag byte has
CHSIZE_MASK clear and no original size is appended after the payload. -/
theorem C3_single_chunk (fileSize chunksize : Nat) (h1 : 0 < fileSize)
    (h2 : fileSize ≤ chunksize) (base : Nat)
    (cfg : Cfg) (ext : Ext) (chunk : List Nat)
    (hcs : cfg.chunksize = (start_compress_adjust fileSize chunksize).1)
    (hchunk : chunk.length = fileSize)
    (hrvok : RvOk cfg ext chunk) :
    (start_compress_adjust fileSize chunksize).2 = true ∧
    start_compress_flags base (start_compress_adjust fileSize chunksize).2 &&&
      FLAG_SINGLE_CHUNK = FLAG_SINGLE_CHUNK ∧
    chunkFlags cfg ext chunk &&& CHSIZE_MASK = 0 ∧
    chunkTail cfg chunk = [] ∧
    chunkWireLen cfg ext chunk = (chunkPayload cfg ext chunk).length := by
  have hadj : start_compress_adjust fileSize chunksize = (fileSize, true) := by
    simp [start_compress_adjust, h2]
  have hcs2 : cfg.chunksize = fileSize := by rw [hcs, hadj]
  have hnotlt : ¬ chunk.length < cfg.chunksize := by omega
  obtain ⟨rv, hrv8, hfl⟩ := chunkFlags_norm cfg ext chunk hrvok
  refine ⟨by rw [hadj], ?_, ?_, chunkTail_nil cfg chunk hnotlt, ?_⟩
  · rw [hadj]
    simp only [start_compress_flags, if_pos]
    exact nat_or_and_self base FLAG_SINGLE_CHUNK
  · rw [hfl, mkType_chsize _ _ _ _ _ hrv8]
    simp [hnotlt]
  · unfold chunkWireLen
    simp [hnotlt]

/-- Claim C3, witness at a concrete file. -/
theorem C3_witness :
    chunkFlags ⟨2, 4, false, false, false, 0⟩ extFail [1, 2, 3, 4] &&&
      CHSIZE_MASK = 0 ∧
    chunkTail ⟨2, 4, false, false, false, 0⟩ [1, 2, 3, 4] = [] := by
  have h := C3_single_chunk 4 2048 (by omega) (by omega) 0
    ⟨2, 4, false, false, false, 0⟩ extFail [1, 2, 3, 4] (by decide) (by decide)
    (by intro hcon; simp at hcon)
  exact ⟨h.2.2.1, h.2.2.2.1⟩

/-! ### Claim C7: header version gate -/

/-- Claim C7: `start_decompress` rejects any header version above the
compiled `VERSION` or below `VERSION - 3` before any chunk is processed,
and (chunk size and level being otherwise valid) the sanity checks accept
exactly the versions in the window `[VERSION - 3, VERSION]`. -/
theorem C7_version_gate (V version : Int) (chunksize totalRam : Nat) (level : Int)
    (hcs : chunksize ≤ EIGHTY_PCT totalRam) (hlv0 : 0 ≤ level)
    (hlv1 : level ≤ MAX_LEVEL) :
    (start_decompress_checks V version chunksize totalRam level = .ok () ↔
      V - 3 ≤ version ∧ version ≤ V) ∧
    (V < version → start_decompress_checks V version chunksize totalRam level =
      .error "Cannot handle newer archive version") ∧
    (version < V - 3 → start_decompress_checks V version chunksize totalRam level ≠
      .ok ()) := by
  simp only [MAX_LEVEL] at hlv1
  unfold start_decompress_checks
  rcases Decidable.em (V < version) with h1 | h1
  · rw [if_pos h1]
    refine ⟨⟨fun h => by simp at h, fun hw => by omega⟩, fun _ => rfl, fun _ => by simp⟩
  · rw [if_neg h1, if_neg (by omega : ¬ EIGHTY_PCT totalRam < chunksize),
      if_neg (by simp only [MAX_LEVEL]; omega : ¬ (MAX_LEVEL < level ∨ level < 0))]
    rcases Decidable.em (version < V - 3) with h2 | h2
    · rw [if_pos h2]
      refine ⟨⟨fun h => by simp at h, fun hw => by omega⟩, fun h3 => absurd h3 h1,
        fun _ => by simp⟩
    · rw [if_neg h2]
      exact ⟨⟨fun _ => ⟨by omega, by omega⟩, fun _ => rfl⟩, fun h3 => absurd h3 h1,
        fun h4 => absurd h4 h2⟩

/-- Claim C7, witness: with the compiled version 9, version 6 is accepted,
version 10 rejected as too new, version 5 rejected as unsupported. -/
theorem C7_witness :
    start_decompress_checks 9 6 1024 (1024 * 1024) 6 = .ok () ∧
    start_decompress_checks 9 10 1024 (1024 * 1024) 6 =
      .error "Cannot handle newer archive version" ∧
    start_decompress_checks 9 5 1024 (1024 * 1024) 6 ≠ .ok () := by
  have h6 := C7_version_gate 9 6 1024 (1024 * 1024) 6
    (by simp [EIGHTY_PCT]) (by omega) (by simp [MAX_LEVEL])
  have h10 := C7_version_gate 9 10 1024 (1024 * 1024) 6
    (by simp [EIGHTY_PCT]) (by omega) (by simp [MAX_LEVEL])
  have h5 := C7_version_gate 9 5 1024 (1024 * 1024) 6
    (by simp [EIGHTY_PCT]) (by omega) (by simp [MAX_LEVEL])
  exact ⟨h6.1.mpr (by omega), h10.2.1 (by omega), h5.2.2 (by omega)⟩

/-! ### Claim C5: uncompressed fallback -/

theorem flags_read (cfg : Cfg) (ext : Ext) (chunk : List Nat)
    (hck : (ext.cksum chunk).length = cfg.cksum_bytes) :
    (((perform_compress cfg ext chunk).drop 8).drop (cfg.cksum_bytes + 4)).headD 0 =
      chunkFlags cfg ext chunk := by
  rw [perform_compress_drop8, ← List.drop_drop, List.drop_left' hck,
    List.drop_left' (toBytesBE_length 4 _)]
  simp

theorem payload_read (cfg : Cfg) (ext : Ext) (chunk : List Nat)
    (hck : (ext.cksum chunk).length = cfg.cksum_bytes) :
    ((perform_compress cfg ext chunk).drop 8).drop
        (cfg.cksum_bytes + 4 + CHUNK_FLAG_SZ) =
      chunkPayload cfg ext chunk ++ chunkTail cfg chunk := by
  rw [perform_compress_drop8]
  have h : cfg.cksum_bytes + 4 + CHUNK_FLAG_SZ = cfg.cksum_bytes + 4 + 1 := rfl
  rw [h, ← List.drop_drop, ← List.drop_drop, List.drop_left' hck,
    List.drop_left' (toBytesBE_length 4 _)]
  simp

theorem cksum_read (cfg : Cfg) (ext : Ext) (chunk : List Nat)
    (hck : (ext.cksum chunk).length = cfg.cksum_bytes) :
    ((perform_compress cfg ext chunk).drop 8).take cfg.cksum_bytes =
      ext.cksum chunk := by
  rw [perform_compress_drop8]
  exact List.take_left' hck

theorem frame_buf_length (cfg : Cfg) (ext : Ext) (chunk : List Nat)
    (hck : (ext.cksum chunk).length = cfg.cksum_bytes) :
    ((perform_compress cfg ext chunk).drop 8).length =
      cfg.cksum_bytes + 4 + 1 + (chunkPayload cfg ext chunk).length +
        (chunkTail cfg chunk).length := by
  rw [perform_compress_drop8]
  simp [List.length_append, hck, toBytesBE_length]
  omega

theorem tail_read (cfg : Cfg) (ext : Ext) (chunk : List Nat)
    (hck : (ext.cksum chunk).length = cfg.cksum_bytes)
    (hchs : chunk.length < cfg.chunksize) :
    ((perform_compress cfg ext chunk).drop 8).drop
        (((perform_compress cfg ext chunk).drop 8).length - 8) =
      chunkTail cfg chunk := by
  rw [frame_buf_length cfg ext chunk hck, perform_compress_drop8]
  have htl : (chunkTail cfg chunk).length = 8 := chunkTail_length_chs cfg chunk hchs
  have hassoc : ext.cksum chunk ++
      (toBytesBE 4 (chunkCrc cfg ext chunk) ++
        ([chunkFlags cfg ext chunk] ++
          (chunkPayload cfg ext chunk ++ chunkTail cfg chunk))) =
      (ext.cksum chunk ++ toBytesBE 4 (chunkCrc cfg ext chunk) ++
        [chunkFlags cfg ext chunk] ++ chunkPayload cfg ext chunk) ++
        chunkTail cfg chunk := by
    simp [List.append_assoc]
  rw [hassoc]
  refine List.drop_left' ?_
  simp [List.length_append, hck, toBytesBE_length, htl]
  omega

/-- On the plain path (no dedup, no preprocessing), when the backend errors
or does not shrink the chunk, the stored payload is the chunk verbatim,
its length is the original chunk length, and the flag byte's low bits mark
it UNCOMPRESSED. -/
theorem fallback_verbatim (cfg : Cfg) (ext : Ext) (chunk : List Nat)
    (hnp : cfg.lzp_preprocess = false) (hnd : cfg.enable_delta2_encode = false)
    (hfail : ext.comp chunk = none ∨
      ∃ rv out, ext.comp chunk = some (rv, out) ∧ chunk.length ≤ out.length) :
    chunkPayload cfg ext chunk = chunk ∧ (fallbackStage cfg ext chunk).1 = false := by
  have hstage : compressStage cfg ext chunk =
      (match ext.comp chunk with
        | none => (none, chunk)
        | some (rv, out) => (some (rv, out), chunk)) := by
    unfold compressStage
    rw [if_neg (by simp [hnp, hnd])]
  rcases hfail with hno | ⟨rv, out, hs, hle⟩
  · unfold chunkPayload fallbackStage
    rw [hstage, hno]
    simp [List.take_length]
  · unfold chunkPayload fallbackStage
    rw [hstage, hs]
    simp only [if_pos hle]
    simp [List.take_length]

/-- An intact frame whose chunk was stored verbatim decompresses back to
the chunk by plain copy: the uncompressed branch of `perform_decompress`
never calls the backend decompressor. -/
theorem perform_decompress_uncompressed (cfg : Cfg) (ext : Ext) (chunk : List Nat)
    (hck : (ext.cksum chunk).length = cfg.cksum_bytes)
    (hrvok : RvOk cfg ext chunk)
    (hlen : chunk.length ≤ cfg.chunksize)
    (hcs : cfg.chunksize + 256 < 2 ^ 64)
    (hpay : chunkPayload cfg ext chunk = chunk)
    (hunc : (fallbackStage cfg ext chunk).1 = false) :
    perform_decompress cfg ext (perform_compress cfg ext chunk) = .ok chunk := by
  obtain ⟨rv, hrv8, hfl⟩ := chunkFlags_norm cfg ext chunk hrvok
  have hsize := (wireLen_read cfg ext chunk hlen hcs).2
  have hcrc := chunk_crc_ok_intact cfg ext chunk hck hrvok
  have hflags := flags_read cfg ext chunk hck
  have hpayr := payload_read cfg ext chunk hck
  have hcksr := cksum_read cfg ext chunk hck
  have hcomp : chunkFlags cfg ext chunk &&& COMPRESSED = 0 := by
    rw [hfl, mkType_compressed _ _ _ _ _ hrv8, hunc]
    simp
  simp only [perform_decompress]
  rw [if_neg hsize, hcrc]
  simp only [Bool.true_eq_false, if_false, hflags, hcomp, ne_eq,
    not_true_eq_false, not_false_eq_true, if_neg, ite_false]
  rcases Decidable.em (chunk.length < cfg.chunksize) with hchs | hchs
  · have hbit : chunkFlags cfg ext chunk &&& CHSIZE_MASK = CHSIZE_MASK := by
      rw [hfl, mkType_chsize _ _ _ _ _ hrv8]
      simp [hchs]
    have htailr := tail_read cfg ext chunk hck hchs
    have htail8 : (chunkTail cfg chunk).take 8 = chunkTail cfg chunk :=
      List.take_of_length_le (by rw [chunkTail_length_chs cfg chunk hchs])
    have hsz0 : fromBytesBE ((chunkTail cfg chunk).take 8) = chunk.length := by
      rw [htail8, chunkTail, if_pos hchs, fromBytesBE_toBytesBE]
      exact Nat.mod_eq_of_lt (by norm_num; omega)
    rw [if_pos (by rw [hbit]; simp [CHSIZE_MASK] : chunkFlags cfg ext chunk &&&
      CHSIZE_MASK ≠ 0)]
    rw [htailr, hsz0, hpayr, hpay]
    rw [List.take_left' rfl]
    rw [if_neg (by rw [hcksr]; simp : ¬ ext.cksum chunk ≠
      ((perform_compress cfg ext chunk).drop 8).take cfg.cksum_bytes)]
  · have hbit : chunkFlags cfg ext chunk &&& CHSIZE_MASK = 0 := by
      rw [hfl, mkType_chsize _ _ _ _ _ hrv8]
      simp [hchs]
    have hcseq : cfg.chunksize = chunk.length := by omega
    rw [if_neg (by rw [hbit]; simp : ¬ chunkFlags cfg ext chunk &&&
      CHSIZE_MASK ≠ 0)]
    rw [hpayr, hpay, hcseq]
    rw [List.take_left' rfl]
    rw [if_neg (by rw [hcksr]; simp : ¬ ext.cksum chunk ≠
      ((perform_compress cfg ext chunk).drop 8).take cfg.cksum_bytes)]

/-- Poison collaborators for the preprocessing corner case: LZP shrinks the
4-byte chunk by exactly one byte (and its decompressor inverts that), the
backend always errors, 1-byte checksum. -/
def extPoison : Ext :=
  ⟨fun l => if l = [1, 2, 3, 4] then some [9, 9, 9] else none,
    fun l => if l = [9, 9, 9] then some [1, 2, 3, 4] else none,
    fun _ _ => none, fun _ => none,
    fun _ => none, fun _ _ => none,
    fun l => [l.sum % 256]⟩

/-- Single-chunk configuration with LZP preprocessing enabled, chunk size
adjusted to the 4-byte file size. -/
def cfgPoison : Cfg := ⟨1, 4, true, false, false, 0⟩

/-- Claim C5, counterexample to the claim as stated: with LZP enabled, when
LZP shrinks the chunk by one byte and the backend errors, `perform_compress`
marks the chunk UNCOMPRESSED but stores the LZP-transformed bytes - not the
chunk bytes verbatim - and `perform_decompress` does not recover the chunk. -/
theorem C5_counterexample :
    extPoison.comp [9, 9, 9] = none ∧
    chunkPayload cfgPoison extPoison [1, 2, 3, 4] = [9, 9, 9, 4] ∧
    chunkFlags cfgPoison extPoison [1, 2, 3, 4] &&& 3 = 0 ∧
    perform_decompress cfgPoison extPoison
      (perform_compress cfgPoison extPoison [1, 2, 3, 4]) ≠
      .ok [1, 2, 3, 4] := by
  refine ⟨rfl, by decide, by decide, ?_⟩
  intro h
  have h2 : perform_decompress cfgPoison extPoison
      (perform_compress cfgPoison extPoison [1, 2, 3, 4]) =
      .error "checksums do not match" := by rfl
  rw [h2] at h
  exact Except.noConfusion h

/-- Claim C5, amended: for every chunk processed with no dedup and no
preprocessing, when the backend errors or produces output at least as long
as the chunk, `perform_compress` marks the chunk UNCOMPRESSED (low flag
bits 00), sets the stored length to the original chunk length, stores the
chunk bytes verbatim, and `perform_decompress` recovers the chunk bit-exact
through the plain-copy branch that never invokes the backend. -/
theorem C5_uncompressed_fallback (cfg : Cfg) (ext : Ext) (chunk : List Nat)
    (hnp : cfg.lzp_preprocess = false) (hnd : cfg.enable_delta2_encode = false)
    (hfail : ext.comp chunk = none ∨
      ∃ rv out, ext.comp chunk = some (rv, out) ∧ chunk.length ≤ out.length)
    (hck : (ext.cksum chunk).length = cfg.cksum_bytes)
    (hrvok : RvOk cfg ext chunk)
    (hlen : chunk.length ≤ cfg.chunksize)
    (hcs : cfg.chunksize + 256 < 2 ^ 64) :
    chunkPayload cfg ext chunk = chunk ∧
    (chunkPayload cfg ext chunk).length = chunk.length ∧
    chunkFlags cfg ext chunk &&& 3 = 0 ∧
    perform_decompress cfg ext (perform_compress cfg ext chunk) = .ok chunk := by
  obtain ⟨hpay, hunc⟩ := fallback_verbatim cfg ext chunk hnp hnd hfail
  obtain ⟨rv, hrv8, hfl⟩ := chunkFlags_norm cfg ext chunk hrvok
  refine ⟨hpay, by rw [hpay], ?_,
    perform_decompress_uncompressed cfg ext chunk hck hrvok hlen hcs hpay hunc⟩
  rw [hfl, mkType_low2 _ _ _ _ _ hrv8, hunc]
  simp

/-- Claim C5, witness: a 4-byte chunk with an always-failing backend is
stored verbatim and recovered bit-exact. -/
theorem C5_witness :
    perform_decompress cfgPlain extFail
      (perform_compress cfgPlain extFail [1, 2, 3, 4]) = .ok [1, 2, 3, 4] :=
  (C5_uncompressed_fallback cfgPlain extFail [1, 2, 3, 4] rfl rfl (Or.inl rfl)
    (by decide) (by intro hcon; simp [cfgPlain] at hcon) (by decide)
    (by decide)).2.2.2

/-- Claim C1, evaluated at the failing input.  With LZP preprocessing
enabled, when LZP shrinks the chunk by one byte and the backend fails to
compress (as lzfx does on incompressible data), `perform_compress` emits
the chunk with CHUNK_FLAG_PREPROC set but COMPRESSED clear, storing the
LZP-transformed bytes; `perform_decompress` only reverses preprocessing
when COMPRESSED is set, so it plain-copies the transformed bytes and the
chunk fails its plaintext checksum: decompression does not invert
compression, although the LZP pair itself is perfectly invertible
(conjunct 3). -/
theorem C1_roundtrip_failure :
    chunkFlags cfgPoison extPoison [1, 2, 3, 4] = CHUNK_FLAG_PREPROC ∧
    chunkPayload cfgPoison extPoison [1, 2, 3, 4] = [9, 9, 9, 4] ∧
    extPoison.lzp_d [9, 9, 9] = some [1, 2, 3, 4] ∧
    perform_decompress cfgPoison extPoison
      (perform_compress cfgPoison extPoison [1, 2, 3, 4]) =
      .error "checksums do not match" := by
  refine ⟨by decide, by decide, by decide, by rfl⟩

/-! ### Claims C4 and C10: the preprocessing wrapper -/

theorem applyInto_take (buf new : List Nat) :
    (applyInto buf new).take new.length = new :=
  List.take_left' rfl

theorem preprocStage1_cases (cfg : Cfg) (ext : Ext) (src : List Nat)
    (ty1 : Nat) (buf1 : List Nat) (n1 : Nat)
    (h : preprocStage1 cfg ext src = some (ty1, buf1, n1)) :
    (ty1 = 0 ∧ buf1 = src ∧ n1 = src.length) ∨
    (ty1 = PREPROC_TYPE_LZP ∧ ∃ res, ext.lzp_c src = some res ∧
      res.length ≠ src.length ∧ buf1 = applyInto src res ∧ n1 = res.length) := by
  by_cases hp : cfg.lzp_preprocess = true
  · cases hl : ext.lzp_c src with
    | none =>
      by_cases hd : cfg.enable_delta2_encode = true
      · simp [preprocStage1, hp, hl, hd] at h
        exact Or.inl ⟨h.1.symm, h.2.1.symm, h.2.2.symm⟩
      · simp [preprocStage1, hp, hl, hd] at h
    | some res =>
      by_cases hql : res.length = src.length
      · by_cases hd : cfg.enable_delta2_encode = true
        · simp [preprocStage1, hp, hl, hql, hd] at h
          exact Or.inl ⟨h.1.symm, h.2.1.symm, h.2.2.symm⟩
        · simp [preprocStage1, hp, hl, hql, hd] at h
      · simp [preprocStage1, hp, hl, hql] at h
        exact Or.inr ⟨h.1.symm, res, rfl, hql, h.2.1.symm, h.2.2.symm⟩
  · by_cases hd : cfg.enable_delta2_encode = true
    · simp [preprocStage1, hp, hd] at h
      exact Or.inl ⟨h.1.symm, h.2.1.symm, h.2.2.symm⟩
    · simp [preprocStage1, hp, hd] at h

theorem preprocStage2_cases (cfg : Cfg) (ext : Ext) (ty1 : Nat) (buf1 : List Nat)
    (n1 ty2 : Nat) (buf2 : List Nat) (n2 : Nat)
    (h : preprocStage2 cfg ext ty1 buf1 n1 = (ty2, buf2, n2)) :
    (ty2 = ty1 ∧ buf2 = buf1 ∧ n2 = n1) ∨
    (ty2 = ty1 ||| PREPROC_TYPE_DELTA2 ∧ ∃ res2,
      ext.delta2_enc cfg.delta2_span (buf1.take n1) = some res2 ∧
      buf2 = applyInto buf1 res2 ∧ n2 = res2.length) := by
  by_cases hc : cfg.enable_delta2_encode = true ∧ 0 < cfg.delta2_span
  · cases hd : ext.delta2_enc cfg.delta2_span (buf1.take n1) with
    | none =>
      simp [preprocStage2, hc, hd] at h
      exact Or.inl ⟨h.1.symm, h.2.1.symm, h.2.2.symm⟩
    | some res2 =>
      simp [preprocStage2, hc, hd] at h
      exact Or.inr ⟨h.1.symm, res2, rfl, h.2.1.symm, h.2.2.symm⟩
  · simp [preprocStage2, hc] at h
    exact Or.inl ⟨h.1.symm, h.2.1.symm, h.2.2.symm⟩

/-- Evaluation of `preproc_decompress` on a payload whose type byte is a
pure preprocessing bitmask (no backend bit): Delta2 is undone first, then
LZP, each gated by its bit. -/
theorem preproc_decompress_mask (ext : Ext) (ty : Nat) (data dst0 src mid : List Nat)
    (hty : ty = 1 ∨ ty = 2 ∨ ty = 3)
    (hd2 : ty &&& PREPROC_TYPE_DELTA2 ≠ 0 → ext.delta2_dec data = some mid)
    (hd2n : ty &&& PREPROC_TYPE_DELTA2 = 0 → mid = data)
    (hlz : ty &&& PREPROC_TYPE_LZP ≠ 0 → ext.lzp_d mid = some src)
    (hlzn : ty &&& PREPROC_TYPE_LZP = 0 → src = mid) :
    preproc_decompress ext (ty :: data) dst0 = .ok src := by
  rcases hty with rfl | rfl | rfl
  · obtain rfl := hd2n (by decide)
    have h1 := hlz (by decide)
    simp [preproc_decompress, PREPROC_COMPRESSED, PREPROC_TYPE_DELTA2,
      PREPROC_TYPE_LZP, h1]
  · obtain rfl := hlzn (by decide)
    have h2 := hd2 (by decide)
    simp [preproc_decompress, PREPROC_COMPRESSED, PREPROC_TYPE_DELTA2,
      PREPROC_TYPE_LZP, h2, show (2 : Nat) &&& 128 = 0 from rfl]
  · have h2 := hd2 (by decide)
    have h1 := hlz (by decide)
    simp [preproc_decompress, PREPROC_COMPRESSED, PREPROC_TYPE_DELTA2,
      PREPROC_TYPE_LZP, h2, h1, show (3 : Nat) &&& 128 = 0 from rfl]

/-- **C4**: when at least one preprocessing stage (LZP or Delta2) was applied
(`0 < ty2`) and the backend either errors or fails to shrink the preprocessed
data, `preproc_compress` still returns success; the emitted payload is the
transform bitmask byte followed by the preprocessed bytes, the
`PREPROC_COMPRESSED` high bit of that type byte is clear, and
`preproc_decompress` inverts exactly the applied transforms in reverse order
(Delta2 decode, then LZP decompress), each gated by its bit, recovering the
original chunk. -/
theorem C4_preproc_fallback (cfg : Cfg) (ext : Ext) (src dst0 : List Nat)
    (ty1 : Nat) (buf1 : List Nat) (n1 ty2 : Nat) (buf2 : List Nat) (n2 : Nat)
    (h1 : preprocStage1 cfg ext src = some (ty1, buf1, n1))
    (h2 : preprocStage2 cfg ext ty1 buf1 n1 = (ty2, buf2, n2))
    (hty2 : 0 < ty2)
    (hbk : (ext.comp (buf2.take n2)).elim True (fun ro => n2 ≤ ro.2.length))
    (hinvd2 : ty2 &&& PREPROC_TYPE_DELTA2 ≠ 0 →
      ext.delta2_dec (buf2.take n2) = some (buf1.take n1))
    (hinvlzp : ty2 &&& PREPROC_TYPE_LZP ≠ 0 →
      ext.lzp_d (buf1.take n1) = some src) :
    preproc_compress cfg ext src = some (0, ty2 :: buf2.take n2, buf2) ∧
    ty2 &&& PREPROC_COMPRESSED = 0 ∧
    preproc_decompress ext (ty2 :: buf2.take n2) dst0 = .ok src := by
  have hcomp : preproc_compress cfg ext src = some (0, ty2 :: buf2.take n2, buf2) := by
    simp only [preproc_compress, h1, h2]
    cases hcm : ext.comp (buf2.take n2) with
    | none => simp [hcm, hty2]
    | some ro =>
      obtain ⟨rv, out⟩ := ro
      rw [hcm] at hbk
      simp only [Option.elim] at hbk
      have hnl : ¬ out.length < n2 := Nat.not_lt.mpr hbk
      simp [hcm, hnl, hty2]
  refine ⟨hcomp, ?_⟩
  rcases preprocStage1_cases cfg ext src ty1 buf1 n1 h1 with
    ⟨rfl, hbs, hns⟩ | ⟨rfl, res, hlc, hlne, rfl, rfl⟩
  · rcases preprocStage2_cases cfg ext _ _ _ _ _ _ h2 with
      ⟨rfl, rfl, rfl⟩ | ⟨rfl, res2, hde, rfl, rfl⟩
    · exact absurd hty2 (by decide)
    · refine ⟨by decide, preproc_decompress_mask ext _ _ dst0 src
        (buf1.take n1) (Or.inr (Or.inl (by decide))) ?_ ?_ ?_ ?_⟩
      · intro hb; exact hinvd2 hb
      · intro hb; exact absurd hb (by decide)
      · intro hb
        exact absurd (show (0 ||| PREPROC_TYPE_DELTA2) &&& PREPROC_TYPE_LZP = 0
          by decide) hb
      · intro hb; rw [hbs, hns]; exact (List.take_length src).symm
  · rcases preprocStage2_cases cfg ext _ _ _ _ _ _ h2 with
      ⟨rfl, rfl, rfl⟩ | ⟨rfl, res2, hde, rfl, rfl⟩
    · refine ⟨by decide, preproc_decompress_mask ext _ _ dst0 src
        ((applyInto src res).take res.length) (Or.inl (by decide)) ?_ ?_ ?_ ?_⟩
      · intro hb
        exact absurd (show PREPROC_TYPE_LZP &&& PREPROC_TYPE_DELTA2 = 0
          by decide) hb
      · intro hb; exact rfl
      · intro hb; exact hinvlzp hb
      · intro hb; exact absurd hb (by decide)
    · refine ⟨by decide, preproc_decompress_mask ext _ _ dst0 src
        ((applyInto src res).take res.length) (Or.inr (Or.inr (by decide)))
        ?_ ?_ ?_ ?_⟩
      · intro hb; exact hinvd2 hb
      · intro hb; exact absurd hb (by decide)
      · intro hb; exact hinvlzp hb
      · intro hb; exact absurd hb (by decide)

/-- Closed witness for C4: under `cfgPoison`/`extPoison` the 4-byte chunk
`[1,2,3,4]` is LZP-preprocessed to `[9,9,9]`, the backend fails, and the chunk
still round-trips through the preprocessing wrapper with type byte 1. -/
theorem C4_witness :
    preproc_compress cfgPoison extPoison [1, 2, 3, 4] =
      some (0, 1 :: [9, 9, 9], [9, 9, 9, 4]) ∧
    1 &&& PREPROC_COMPRESSED = 0 ∧
    preproc_decompress extPoison (1 :: [9, 9, 9]) [] = .ok [1, 2, 3, 4] :=
  C4_preproc_fallback cfgPoison extPoison [1, 2, 3, 4] [] 1 [9, 9, 9, 4] 3 1
    [9, 9, 9, 4] 3 (by decide) (by decide) (by decide) (by trivial)
    (by decide) (by decide)

/-- **C10**: every payload produced by `preproc_compress` starts with the
transform-type byte; the 8 bytes after it hold the big-endian
pre-compression length exactly when the `PREPROC_COMPRESSED` high bit is set
in the type byte, with the backend output following; when the bit is clear
the preprocessed data begins immediately after the type byte.
`preproc_decompress` consumes the length field only when the bit is set:
with the bit set it hands the bytes after the first 8 and the decoded
length to the backend, and with the bit clear its result does not depend on
the backend decompressor at all. -/
theorem C10_payload_layout (cfg : Cfg) (ext : Ext) (src : List Nat)
    (ty1 : Nat) (buf1 : List Nat) (n1 ty2 : Nat) (buf2 : List Nat) (n2 : Nat)
    (rv : Nat) (payload wbuf dst0 : List Nat)
    (d' : List Nat → Nat → Option (List Nat))
    (h1 : preprocStage1 cfg ext src = some (ty1, buf1, n1))
    (h2 : preprocStage2 cfg ext ty1 buf1 n1 = (ty2, buf2, n2))
    (hn2 : n2 < 256 ^ 8)
    (hres : preproc_compress cfg ext src = some (rv, payload, wbuf)) :
    ∃ ty rest, payload = ty :: rest ∧
      (ty &&& PREPROC_COMPRESSED ≠ 0 →
        ∃ rvb out, ext.comp (buf2.take n2) = some (rvb, out) ∧
          out.length < n2 ∧ rest = toBytesBE 8 n2 ++ out ∧
          fromBytesBE (rest.take 8) = n2 ∧ rest.drop 8 = out) ∧
      (ty &&& PREPROC_COMPRESSED = 0 → rest = buf2.take n2) ∧
      (∀ (tyc : Nat) (restc : List Nat), tyc &&& PREPROC_COMPRESSED ≠ 0 →
        ext.decomp (restc.drop 8) (fromBytesBE (restc.take 8)) = none →
        preproc_decompress ext (tyc :: restc) dst0 =
          .error "backend decompression failed") ∧
      (∀ (tyc : Nat) (restc : List Nat), tyc &&& PREPROC_COMPRESSED = 0 →
        preproc_decompress ⟨ext.lzp_c, ext.lzp_d, ext.delta2_enc,
          ext.delta2_dec, ext.comp, d', ext.cksum⟩ (tyc :: restc) dst0 =
          preproc_decompress ext (tyc :: restc) dst0) := by
  have hmask : ty2 &&& PREPROC_COMPRESSED = 0 := by
    rcases preprocStage1_cases cfg ext src ty1 buf1 n1 h1 with
      ⟨rfl, -, -⟩ | ⟨rfl, -, -, -, -, -⟩ <;>
    rcases preprocStage2_cases cfg ext _ _ _ _ _ _ h2 with
      ⟨rfl, -, -⟩ | ⟨rfl, -, -, -, -⟩ <;> decide
  have hdec_err : ∀ (tyc : Nat) (restc : List Nat),
      tyc &&& PREPROC_COMPRESSED ≠ 0 →
      ext.decomp (restc.drop 8) (fromBytesBE (restc.take 8)) = none →
      preproc_decompress ext (tyc :: restc) dst0 =
        .error "backend decompression failed" := by
    intro tyc restc hb hn
    simp [preproc_decompress, hb, hn]
  have hdec_ind : ∀ (tyc : Nat) (restc : List Nat),
      tyc &&& PREPROC_COMPRESSED = 0 →
      preproc_decompress ⟨ext.lzp_c, ext.lzp_d, ext.delta2_enc,
        ext.delta2_dec, ext.comp, d', ext.cksum⟩ (tyc :: restc) dst0 =
        preproc_decompress ext (tyc :: restc) dst0 := by
    intro tyc restc hb
    simp [preproc_decompress, hb]
  simp only [preproc_compress, h1, h2] at hres
  cases hcm : ext.comp (buf2.take n2) with
  | none =>
    rw [hcm] at hres
    by_cases hp : 0 < ty2
    · simp only [hp, if_true, Option.some.injEq, Prod.mk.injEq] at hres
      obtain ⟨-, hpay, -⟩ := hres
      refine ⟨ty2, buf2.take n2, hpay.symm, ?_, fun _ => rfl, hdec_err, hdec_ind⟩
      intro hb; exact absurd hmask hb
    · simp only [hp, if_false] at hres
      exact absurd hres (by simp)
  | some ro =>
    obtain ⟨rvb, out⟩ := ro
    rw [hcm] at hres
    by_cases hs : out.length < n2
    · simp only [hs, if_true, Option.some.injEq, Prod.mk.injEq] at hres
      obtain ⟨-, hpay, -⟩ := hres
      refine ⟨ty2 ||| PREPROC_COMPRESSED, toBytesBE 8 n2 ++ out, hpay.symm,
        ?_, ?_, hdec_err, hdec_ind⟩
      · intro hb
        refine ⟨rvb, out, rfl, hs, rfl, ?_, List.drop_left' (toBytesBE_length 8 n2)⟩
        rw [List.take_left' (toBytesBE_length 8 n2), fromBytesBE_toBytesBE]
        exact Nat.mod_eq_of_lt hn2
      · intro hb
        have h7 : ((ty2 ||| PREPROC_COMPRESSED) &&& PREPROC_COMPRESSED).testBit 7
            = false := by
          rw [hb]; exact Nat.zero_testBit 7
        rw [Nat.testBit_and, Nat.testBit_or] at h7
        simp [PREPROC_COMPRESSED, show Nat.testBit 128 7 = true from by decide]
          at h7
    · simp only [hs, if_false, Option.some.injEq, Prod.mk.injEq] at hres
      obtain ⟨-, hpay, -⟩ := hres
      refine ⟨ty2, buf2.take n2, hpay.symm, ?_, fun _ => rfl, hdec_err, hdec_ind⟩
      intro hb; exact absurd hmask hb

/-- Closed witness for C10 at the `cfgPoison`/`extPoison` instance: the
LZP-preprocessed chunk `[1,2,3,4]` yields payload `1 :: [9,9,9]` with the
high bit clear and the data immediately after the type byte. -/
theorem C10_witness :
    ∃ ty rest, (1 : Nat) :: [9, 9, 9] = ty :: rest ∧
      (ty &&& PREPROC_COMPRESSED ≠ 0 →
        ∃ rvb out, extPoison.comp ([9, 9, 9, 4].take 3) = some (rvb, out) ∧
          out.length < 3 ∧ rest = toBytesBE 8 3 ++ out ∧
          fromBytesBE (rest.take 8) = 3 ∧ rest.drop 8 = out) ∧
      (ty &&& PREPROC_COMPRESSED = 0 → rest = [9, 9, 9, 4].take 3) ∧
      (∀ (tyc : Nat) (restc : List Nat), tyc &&& PREPROC_COMPRESSED ≠ 0 →
        extPoison.decomp (restc.drop 8) (fromBytesBE (restc.take 8)) = none →
        preproc_decompress extPoison (tyc :: restc) [] =
          .error "backend decompression failed") ∧
      (∀ (tyc : Nat) (restc : List Nat), tyc &&& PREPROC_COMPRESSED = 0 →
        preproc_decompress ⟨extPoison.lzp_c, extPoison.lzp_d,
          extPoison.delta2_enc, extPoison.delta2_dec, extPoison.comp,
          fun _ _ => some [7], extPoison.cksum⟩ (tyc :: restc) [] =
          preproc_decompress extPoison (tyc :: restc) []) :=
  C10_payload_layout cfgPoison extPoison [1, 2, 3, 4] 1 [9, 9, 9, 4] 3 1
    [9, 9, 9, 4] 3 0 (1 :: [9, 9, 9]) [9, 9, 9, 4] [] (fun _ _ => some [7])
    (by decide) (by decide) (by decide) (by decide)

/-! ### Claim C8: the dedup index path -/

/-- Toy LZMA pair and transpositions for concrete index-path runs: the
compressor always returns the first ten bytes, the decompressor recognizes
exactly that stored form. -/
def ixToy : IdxExt :=
  ⟨fun _ _ l => some (l.take 10),
    fun _ _ src n =>
      if src = List.replicate 10 5 ∧ n = 92 then some (List.replicate 92 5)
      else none,
    List.reverse, List.reverse⟩

/-- Counterexample to C8 as stated: when the index is LZMA-compressed, the
level argument of the call is the dedup context's level (here 14), not the
sentinel 255; 255 is passed as the chunk-header/mode argument of
`lzma_compress` (main.c line 1389). -/
theorem C8_counterexample :
    (indexCompress ixToy 14 (List.replicate 92 5)).2.2 = some (14, 255) ∧
    (14 : Nat) ≠ 255 :=
  ⟨by decide, by decide⟩

/-- **C8** (amended): on the dedup path the index is byte-transposed, then
LZMA-compressed — with the context's level, 255 being the chunk-header
argument — if and only if it is at least 90 bytes; on error or no shrink
the transposed index is stored verbatim with compressed size equal to the
original size; the decompressor LZMA-decompresses only when the stored
compressed size is strictly smaller than the index size (and the index is
at least 90 bytes), then inverse-transposes, recovering the index. -/
theorem C8_index_path (ix : IdxExt) (lv : Nat) (idx stored : List Nat)
    (szCmp : Nat) (callRec : Option (Nat × Nat))
    (hres : indexCompress ix lv idx = (stored, szCmp, callRec))
    (hinv : szCmp < idx.length →
      ix.lzma_d lv 0 stored idx.length = some (ix.trRow idx))
    (htr : ix.trCol (ix.trRow idx) = idx) :
    (callRec = if 90 ≤ idx.length then some (lv, 255) else none) ∧
    szCmp ≤ idx.length ∧
    (szCmp = idx.length → stored = ix.trRow idx) ∧
    indexDecompress ix lv idx.length szCmp stored = some idx := by
  have hdec_verb : indexDecompress ix lv idx.length idx.length (ix.trRow idx)
      = some idx := by
    simp [indexDecompress, htr]
  by_cases h90 : 90 ≤ idx.length
  · cases hlc : ix.lzma_c lv 255 (ix.trRow idx) with
    | none =>
      simp only [indexCompress, h90, if_true, hlc, Prod.mk.injEq] at hres
      obtain ⟨rfl, rfl, rfl⟩ := hres
      exact ⟨by simp [h90], le_refl _, fun _ => rfl, hdec_verb⟩
    | some out =>
      by_cases hs : out.length < idx.length
      · simp only [indexCompress, h90, if_true, hlc, hs, Prod.mk.injEq] at hres
        obtain ⟨rfl, rfl, rfl⟩ := hres
        have hd := hinv hs
        refine ⟨by simp [h90], Nat.le_of_lt hs,
          fun heq => absurd heq (Nat.ne_of_lt hs), ?_⟩
        simp [indexDecompress, h90, hs, hd, htr]
      · simp only [indexCompress, h90, if_true, hlc, hs, if_false,
          Prod.mk.injEq] at hres
        obtain ⟨rfl, rfl, rfl⟩ := hres
        exact ⟨by simp [h90], le_refl _, fun _ => rfl, hdec_verb⟩
  · simp only [indexCompress, h90, if_false, Prod.mk.injEq] at hres
    obtain ⟨rfl, rfl, rfl⟩ := hres
    exact ⟨by simp [h90], le_refl _, fun _ => rfl, hdec_verb⟩

/-- Closed witness for C8 on a 92-byte index under `ixToy`: the index is
compressed (call recorded as `(14, 255)`), shrinks to 10 bytes, and the
decompressor recovers the original index. -/
theorem C8_witness :
    ((some (14, 255) : Option (Nat × Nat)) =
      if 90 ≤ (List.replicate 92 5 : List Nat).length then some (14, 255)
      else none) ∧
    10 ≤ (List.replicate 92 5 : List Nat).length ∧
    (10 = (List.replicate 92 5 : List Nat).length →
      List.replicate 10 5 = ixToy.trRow (List.replicate 92 5)) ∧
    indexDecompress ixToy 14 (List.replicate 92 5 : List Nat).length 10
      (List.replicate 10 5) = some (List.replicate 92 5) :=
  C8_index_path ixToy 14 (List.replicate 92 5) (List.replicate 10 5) 10
    (some (14, 255)) (by decide) (fun _ => by decide) (by decide)

/-! ### Claim C6: producer / writer round-robin ordering -/

/-- The pool invariant: the output is exactly the ids `0..nw-1` in order;
the producer is at most one lap ahead; every in-flight id `k` sits in slot
`k % N` (loaded or done); slots whose residue class meets no in-flight id
are free. -/
def PoolInv (N : Nat) (s : PoolState) : Prop :=
  s.out = List.range s.nw ∧
  s.nw ≤ s.np ∧ s.np ≤ s.nw + N ∧
  (∀ k, s.nw ≤ k → k < s.np →
    s.slots (k % N) = .loaded k ∨ s.slots (k % N) = .done k) ∧
  (∀ p, p < N → (∀ k, s.nw ≤ k → k < s.np → k % N ≠ p) → s.slots p = .free)

/-- Two in-flight ids in the window `[nw, np)` with the same worker residue
coincide, since the window spans less than one full lap. -/
theorem mod_inj_in_window {N nw np k1 k2 : Nat} (h3 : np ≤ nw + N)
    (h1a : nw ≤ k1) (h1b : k1 < np) (h2a : nw ≤ k2) (h2b : k2 < np)
    (hm : k1 % N = k2 % N) : k1 = k2 := by
  rcases Nat.le_total k1 k2 with hle | hle
  · have hdvd : N ∣ k2 - k1 := (Nat.modEq_iff_dvd' hle).mp hm
    have hz : k2 - k1 = 0 := Nat.eq_zero_of_dvd_of_lt hdvd (by omega)
    omega
  · have hdvd : N ∣ k1 - k2 := (Nat.modEq_iff_dvd' hle).mp hm.symm
    have hz : k1 - k2 = 0 := Nat.eq_zero_of_dvd_of_lt hdvd (by omega)
    omega

theorem poolInv_init (N : Nat) : PoolInv N initState :=
  ⟨rfl, le_refl _, Nat.zero_le _,
    fun k _ h2 => absurd h2 (Nat.not_lt_zero k),
    fun _ _ _ => rfl⟩

theorem poolInv_step (N : Nat) (hN : 0 < N) (s : PoolState)
    (hs : PoolInv N s) (e : Ev) : PoolInv N (stepEv N s e) := by
  obtain ⟨hout, h2, h3, h4, h5⟩ := hs
  cases e with
  | dispatch =>
    cases hsl : s.slots (s.np % N) with
    | free =>
      have hfresh : ∀ k, s.nw ≤ k → k < s.np → k % N ≠ s.np % N := by
        intro k hk1 hk2 hkm
        rcases h4 k hk1 hk2 with h | h <;> rw [hkm, hsl] at h <;> cases h
      have hlt : s.np < s.nw + N := by
        rcases Nat.lt_or_ge s.np (s.nw + N) with h | h
        · exact h
        · have hnp : s.np = s.nw + N := le_antisymm h3 h
          have hmm : s.nw % N = s.np % N := by
            rw [hnp, Nat.add_mod_right]
          exact absurd hmm (hfresh s.nw (le_refl _) (by omega))
      simp only [stepEv, hsl]
      refine ⟨hout, Nat.le_succ_of_le h2, hlt, ?_, ?_⟩
      · intro k hk1 hk2
        have hk2a : k < s.np + 1 := hk2
        by_cases hk : k = s.np
        · subst hk; left; simp
        · have hk2' : k < s.np := by omega
          have hne : k % N ≠ s.np % N := hfresh k hk1 hk2'
          rcases h4 k hk1 hk2' with h | h
          · left; simpa [hne] using h
          · right; simpa [hne] using h
      · intro p hp hnone
        by_cases hpe : p = s.np % N
        · subst hpe
          exact absurd rfl (hnone s.np h2 (Nat.lt_succ_self _))
        · have hfree : s.slots p = .free :=
            h5 p hp (fun k hk1 hk2 =>
              hnone k hk1 (show k < s.np + 1 by omega))
          simpa [hpe] using hfree
    | loaded k => simp only [stepEv, hsl]; exact ⟨hout, h2, h3, h4, h5⟩
    | done k => simp only [stepEv, hsl]; exact ⟨hout, h2, h3, h4, h5⟩
  | finish p =>
    cases hsl : s.slots (p % N) with
    | loaded k =>
      have hpN : p % N < N := Nat.mod_lt _ hN
      have hex : ∃ j, s.nw ≤ j ∧ j < s.np ∧ j % N = p % N := by
        by_contra hcon
        push_neg at hcon
        have hfree := h5 (p % N) hpN hcon
        rw [hfree] at hsl
        cases hsl
      obtain ⟨j, hj1, hj2, hjm⟩ := hex
      have hjk : j = k := by
        rcases h4 j hj1 hj2 with h | h
        · rw [hjm] at h
          exact Slot.loaded.inj (h.symm.trans hsl)
        · rw [hjm] at h
          cases h.symm.trans hsl
      subst hjk
      have hkm : j % N = p % N := hjm
      simp only [stepEv, hsl]
      refine ⟨hout, h2, h3, ?_, ?_⟩
      · intro m hm1 hm2
        by_cases hmp : m % N = p % N
        · have hmj : m = j :=
            mod_inj_in_window h3 hm1 hm2 hj1 hj2 (hmp.trans hkm.symm)
          subst hmj; right; simp [hmp]
        · rcases h4 m hm1 hm2 with h | h
          · left; simpa [hmp] using h
          · right; simpa [hmp] using h
      · intro q hq hqnone
        by_cases hqp : q = p % N
        · subst hqp
          exact absurd hkm (hqnone j hj1 hj2)
        · have hfree := h5 q hq hqnone
          simpa [hqp] using hfree
    | free => simp only [stepEv, hsl]; exact ⟨hout, h2, h3, h4, h5⟩
    | done k => simp only [stepEv, hsl]; exact ⟨hout, h2, h3, h4, h5⟩
  | write =>
    cases hsl : s.slots (s.nw % N) with
    | done k =>
      have hnwN : s.nw % N < N := Nat.mod_lt _ hN
      have hlt : s.nw < s.np := by
        rcases Nat.lt_or_ge s.nw s.np with h | h
        · exact h
        · have hnpnw : s.np = s.nw := le_antisymm (by omega) h2
          have hfree : s.slots (s.nw % N) = .free := by
            apply h5 _ hnwN
            intro j hj1 hj2
            exact absurd (hnpnw ▸ hj2) (Nat.not_lt.mpr hj1)
          rw [hfree] at hsl
          cases hsl
      have hknw : k = s.nw := by
        rcases h4 s.nw (le_refl _) hlt with h | h
        · cases h.symm.trans hsl
        · exact (Slot.done.inj (h.symm.trans hsl)).symm
      subst hknw
      simp only [stepEv, hsl]
      refine ⟨?_, hlt, le_trans h3 (show s.nw + N ≤ s.nw + 1 + N by omega),
        ?_, ?_⟩
      · show s.out ++ [s.nw] = List.range (s.nw + 1)
        rw [hout, List.range_succ]
      · intro m hm1 hm2
        have hm1' : s.nw + 1 ≤ m := hm1
        have hmne : m % N ≠ s.nw % N := by
          intro heq
          have hms : m = s.nw :=
            mod_inj_in_window h3 (by omega) hm2 (le_refl _) hlt heq
          omega
        rcases h4 m (by omega) hm2 with h | h
        · left; simpa [hmne] using h
        · right; simpa [hmne] using h
      · intro q hq hqnone
        by_cases hqe : q = s.nw % N
        · subst hqe; simp
        · have hfree : s.slots q = .free := by
            apply h5 q hq
            intro j hj1 hj2
            by_cases hje : j = s.nw
            · subst hje; exact fun hc => hqe hc.symm
            · exact hqnone j (show s.nw + 1 ≤ j by omega) hj2
          simpa [hqe] using hfree
    | free => simp only [stepEv, hsl]; exact ⟨hout, h2, h3, h4, h5⟩
    | loaded k => simp only [stepEv, hsl]; exact ⟨hout, h2, h3, h4, h5⟩

theorem poolInv_foldl (N : Nat) (hN : 0 < N) (evs : List Ev) :
    ∀ s, PoolInv N s → PoolInv N (evs.foldl (stepEv N) s) := by
  induction evs with
  | nil => intro s hs; exact hs
  | cons e t ih => intro s hs; exact ih _ (poolInv_step N hN s hs e)

/-- **C6**: for any worker count `N ≥ 1` and any interleaving of producer
dispatches, worker completions, and writer collections (blocked actions
being no-ops), the written output is exactly the chunk ids `0, 1, 2, …` in
ascending order — the order in which the producer read them — regardless of
the order in which workers finish. -/
theorem C6_writer_order (N : Nat) (evs : List Ev) (hN : 0 < N) :
    (runPool N evs).out = List.range ((runPool N evs).nw) :=
  (poolInv_foldl N hN evs initState (poolInv_init N)).1

/-- Closed witness for C6: two workers, chunk 1 finishing before chunk 0,
with a blocked write attempt in between; the output is still `[0, 1, 2]`. -/
theorem C6_witness :
    0 < 2 ∧
    (runPool 2 [Ev.dispatch, Ev.dispatch, Ev.finish 1, Ev.write, Ev.finish 0,
      Ev.write, Ev.write, Ev.dispatch, Ev.finish 0, Ev.write]).out =
      List.range ((runPool 2 [Ev.dispatch, Ev.dispatch, Ev.finish 1, Ev.write,
        Ev.finish 0, Ev.write, Ev.write, Ev.dispatch, Ev.finish 0,
        Ev.write]).nw) :=
  ⟨by decide,
    C6_writer_order 2 [Ev.dispatch, Ev.dispatch, Ev.finish 1, Ev.write,
      Ev.finish 0, Ev.write, Ev.write, Ev.dispatch, Ev.finish 0, Ev.write]
      (by decide)⟩

end Pcompress
